import Mathlib

/-!
Verification of the net-alias resolution and dead-driver pruning engine
(`sv_repeater_prune.py`).

The Python source works on strings with a fixed set of small regular
expressions.  This development embeds those regexes as hand-written,
executable character-level matchers over `List Char` (Python `\w`, `\s`,
`[A-Za-z_]`, `\d` are modelled for their ASCII meaning, which is the only
form exercised by the tool's inputs), and embeds each Python function as a
Lean function translated clause by clause from the source.  Python
exceptions (such as the `AttributeError` raised when
`BARE_RE.match(lhs).group('name')` is called on a non-matching string) are
modelled by `Option`/explicit error results, and the `finditer`-based
statement extraction is modelled line by line (none of the claims under
study depends on a regex match spanning several physical lines).
-/

namespace SvRepeaterPrune

/-- Python `\s` (ASCII): space, tab, newline, carriage return, vertical
tab, form feed. -/
def pySpace (c : Char) : Bool :=
  c = ' ' || c = '\t' || c = '\n' || c = '\x0d' || c = '\x0b' || c = '\x0c'

/-- Python `\w` (ASCII): `[A-Za-z0-9_]`. -/
def isWordChar (c : Char) : Bool :=
  c.isAlpha || c.isDigit || c = '_'

/-- `[A-Za-z_]`, the first character of an identifier. -/
def isIdentStart (c : Char) : Bool :=
  c.isAlpha || c = '_'

/-- Longest prefix matching `[A-Za-z_]\w*`; returns the identifier and the
rest. -/
def identHead : List Char → Option (List Char × List Char)
  | [] => none
  | c :: cs =>
    if isIdentStart c then
      some (c :: cs.takeWhile isWordChar, cs.dropWhile isWordChar)
    else
      none

/-- Numeric value of a list of decimal digit characters. -/
def digitsVal (ds : List Char) : Nat :=
  ds.foldl (fun a c => a * 10 + (c.toNat - '0'.toNat)) 0

/-- Longest prefix matching `\d+`; returns its value and the rest. -/
def digitsHead (l : List Char) : Option (Nat × List Char) :=
  match l.takeWhile Char.isDigit, l.dropWhile Char.isDigit with
  | [], _ => none
  | ds, r => some (digitsVal ds, r)

/-- Python `str.strip()` (whitespace on both ends). -/
def pyStrip (l : List Char) : List Char :=
  ((l.dropWhile pySpace).reverse.dropWhile pySpace).reverse

/-- `str.strip()` on strings. -/
def strStrip (s : String) : String :=
  ⟨pyStrip s.data⟩

/-- `BARE_RE`: full match of `^[A-Za-z_]\w*$`. -/
def matchBare (s : String) : Option String :=
  match identHead s.data with
  | some (w, []) => some ⟨w⟩
  | _ => none

/-- `INDEX_RE`: full match of `^([A-Za-z_]\w*)\[(\d+)\]$`. -/
def matchIndex (s : String) : Option (String × Nat) :=
  match identHead s.data with
  | some (w, '[' :: r) =>
    match digitsHead r with
    | some (n, [']']) => some (⟨w⟩, n)
    | _ => none
  | _ => none

/-- `SLICE_RE`: full match of `^([A-Za-z_]\w*)\[(\d+):(\d+)\]$`. -/
def matchSlice (s : String) : Option (String × Nat × Nat) :=
  match identHead s.data with
  | some (w, '[' :: r) =>
    match digitsHead r with
    | some (hi, ':' :: r2) =>
      match digitsHead r2 with
      | some (lo, [']']) => some (⟨w⟩, hi, lo)
      | _ => none
    | _ => none
  | _ => none

/-- `parse_width_range`: full match of `^\[\s*(\d+)\s*:\s*(\d+)\s*\]$`,
returning `(hi, lo)`; `None` for absent or non-literal ranges. -/
def parseWidthRange (width : String) : Option (Nat × Nat) :=
  match width.data with
  | '[' :: r =>
    match digitsHead (r.dropWhile pySpace) with
    | some (hi, r2) =>
      match (r2.dropWhile pySpace) with
      | ':' :: r3 =>
        match digitsHead (r3.dropWhile pySpace) with
        | some (lo, r4) =>
          match r4.dropWhile pySpace with
          | [']'] => some (hi, lo)
          | _ => none
        | none => none
      | _ => none
    | none => none
  | _ => none

/-- `iter_slice_indices`: the inclusive indices of a `[hi:lo]` slice, in
descending order when `hi >= lo` and ascending order otherwise. -/
def iterSliceIndices (hi lo : Nat) : List Nat :=
  if lo ≤ hi then
    (List.range (hi - lo + 1)).map (fun k => hi - k)
  else
    (List.range (lo - hi + 1)).map (fun k => hi + k)

/-- `render_token`: `(base, idx)` back to `base` or `base[idx]`. -/
def renderToken (base : String) (idx : Option Nat) : String :=
  match idx with
  | none => base
  | some i => base ++ "[" ++ Nat.repr i ++ "]"

/-- `parse_key_to_name_idx`.  The Python body ends in
`BARE_RE.match(tok).group('name')`, which raises `AttributeError` when the
token matches neither `INDEX_RE` nor `BARE_RE`; that exception is modelled
by `none`. -/
def parseKeyToNameIdx (tok : String) : Option (String × Option Nat) :=
  match matchIndex tok with
  | some (n, i) => some (n, some i)
  | none =>
    match matchBare tok with
    | some n => some (n, none)
    | none => none

/-- `decompose_lhs`: split an assignment LHS into `(base, bit positions)`.
As in `parse_key_to_name_idx`, the final unguarded
`BARE_RE.match(lhs).group('name')` raises on non-matching text; the raised
`AttributeError` is modelled by `none`. -/
def decomposeLhs (lhs : String) : Option (String × List (Option Nat)) :=
  let l := strStrip lhs
  match matchIndex l with
  | some (n, i) => some (n, [some i])
  | none =>
    match matchSlice l with
    | some (n, hi, lo) => some (n, (iterSliceIndices hi lo).map some)
    | none =>
      match matchBare l with
      | some n => some (n, [none])
      | none => none

/-- `INV_TOKEN_RE` applied to an already-stripped string: a leading `~`
with a nonempty remainder strips to the inverted payload.  Returns the
`inv_all` flag plus the (re-stripped) remaining text. -/
def stripInv (s : String) : Bool × String :=
  match s.data with
  | '~' :: rest =>
    let w := pyStrip rest
    if w = [] then (false, s) else (true, ⟨w⟩)
  | _ => (false, s)

/-- `REPL_RE`: full match of
`^\{\s*(\d+)\s*\{\s*(~\s*)?([A-Za-z_]\w*(?:\[\d+(?::\d+)?\])?)\s*\}\s*\}$`;
returns `(count, inner-inversion flag, unit text)`. -/
def matchRepl (s : String) : Option (Nat × Bool × String) :=
  match s.data with
  | '{' :: r =>
    match digitsHead (r.dropWhile pySpace) with
    | some (count, r2) =>
      match (r2.dropWhile pySpace) with
      | '{' :: r3 =>
        let r4 := r3.dropWhile pySpace
        let (inv, r5) :=
          match r4 with
          | '~' :: r5raw => (true, r5raw.dropWhile pySpace)
          | _ => (false, r4)
        match identHead r5 with
        | some (w, r6) =>
          -- optional `\[\d+(?::\d+)?\]` unit after the identifier
          let tryBracket : Option (List Char × List Char) :=
            match r6 with
            | '[' :: r7 =>
              match digitsHead r7 with
              | some (_, r8) =>
                match r8 with
                | ']' :: r9 => some ('[' :: r7.take (r7.length - r9.length - 1) ++ [']'], r9)
                | ':' :: r9 =>
                  match digitsHead r9 with
                  | some (_, ']' :: r10) =>
                    some ('[' :: r7.take (r7.length - r10.length - 1) ++ [']'], r10)
                  | _ => none
                | _ => none
              | none => none
            | _ => none
          let (what, r11) :=
            match tryBracket with
            | some (br, r9) => (w ++ br, r9)
            | none => (w, r6)
          match r11.dropWhile pySpace with
          | '}' :: r12 =>
            match r12.dropWhile pySpace with
            | ['}'] => some (count, inv, ⟨what⟩)
            | _ => none
          | _ => none
        | none => none
      | _ => none
    | none => none
  | _ => none

/-- Fuel-indexed body of `explode_rhs_as_refs`.  The Python function calls
itself once on the replication unit; the fuel bounds that recursion (the
wrapper below supplies more than enough).  `none` models Python `None`. -/
def explodeF : Nat → String → Nat → Option (List (String × Bool))
  | 0, _, _ => none
  | fuel + 1, rhs0, lhsBits =>
    let rhs1 := strStrip rhs0
    let p := stripInv rhs1
    let invAll := p.1
    let rhs := p.2
    match matchRepl rhs with
    | some (count, innerInv, what) =>
      match explodeF fuel (strStrip what) 1 with
      | none => none
      | some [] => none
      | some ((u, uinv) :: _) =>
        if lhsBits ≤ count then
          some (List.replicate lhsBits (u, uinv.xor (innerInv.xor invAll)))
        else
          none
    | none =>
      match matchSlice rhs with
      | some (name, hi, lo) =>
        let bits := (iterSliceIndices hi lo).map
          (fun i => name ++ "[" ++ Nat.repr i ++ "]")
        if bits.length = lhsBits then
          some (bits.map (fun b => (b, invAll)))
        else
          none
      | none =>
        match matchIndex rhs with
        | some _ => some (List.replicate lhsBits (rhs, invAll))
        | none =>
          match matchBare rhs with
          | some _ => some (List.replicate lhsBits (rhs, invAll))
          | none => none

/-- `explode_rhs_as_refs`.  The self-recursion of the source is at most one
level deep (the replication unit is an identifier form, never another
replication), so `rhs.length + 1` units of fuel are always sufficient. -/
def explodeRhsAsRefs (rhs : String) (lhsBits : Nat) : Option (List (String × Bool)) :=
  explodeF (rhs.length + 1) rhs lhsBits

/-! ### The two-level alias map (`BitMap`) -/

/-- A key of the alias map: `(base, bit-index-or-none)`. -/
abbrev Key := String × Option Nat

/-- `BitMap = Dict[str, Dict[Optional[int], Tuple[str, bool]]]`, modelled
as an insertion-ordered association list of association lists. -/
abbrev BitMap := List (String × List (Option Nat × (String × Bool)))

instance : DecidableEq (List (String × List (Option Nat × (String × Bool)))) :=
  instDecidableEqList

/-- `mapM` over `Option`, written out so that its equations are directly
usable: `none` anywhere makes the whole result `none`. -/
def mapMOpt (f : α → Option β) : List α → Option (List β)
  | [] => some []
  | a :: l =>
    match f a, mapMOpt f l with
    | some b, some l2 => some (b :: l2)
    | _, _ => none

/-- Lookup in the inner per-bit dictionary. -/
def lookupInner : List (Option Nat × (String × Bool)) → Option Nat → Option (String × Bool)
  | [], _ => none
  | (j, v) :: rest, i => if j = i then some v else lookupInner rest i

/-- `base in src_map and idx in src_map[base]` plus the read
`src_map[base][idx]`, as one partial lookup. -/
def lookupBM : BitMap → String → Option Nat → Option (String × Bool)
  | [], _, _ => none
  | (b, inner) :: rest, base, idx =>
    if b = base then lookupInner inner idx else lookupBM rest base idx

/-- All `(base, idx)` positions of the map, in structure order. -/
def keysList : BitMap → List Key
  | [] => []
  | (b, inner) :: rest => inner.map (fun iv => (b, iv.1)) ++ keysList rest

/-- Fuel that always suffices for `resolveFinalF` (one more than the
number of stored positions). -/
def bmFuel (m : BitMap) : Nat :=
  (keysList m).length + 1

/-- Result of one run of the recursive resolver: a value, a Python
exception (`AttributeError` from `parse_key_to_name_idx`), or exhausted
fuel.  The source recursion always terminates, which is proved below as
`resolveFinalF` never returning `fuelOut` at `bmFuel`. -/
inductive RunRes (α : Type) where
  | fuelOut : RunRes α
  | exn : RunRes α
  | ok : α → RunRes α
  deriving DecidableEq, Repr

/-- `resolve_final`, fuel-indexed.  Faithful to the source: the
`seen`-set check comes first (`return (render_token(base, idx), False)` on
a revisited key), then the map lookup, then the parse of the stored token
and the recursive call, XOR-folding the inversion on the way out. -/
def resolveFinalF : Nat → BitMap → String → Option Nat → List Key → RunRes (String × Bool)
  | 0, _, _, _, _ => .fuelOut
  | fuel + 1, m, base, idx, seen =>
    if (base, idx) ∈ seen then
      .ok (renderToken base idx, false)
    else
      match lookupBM m base idx with
      | none => .ok (renderToken base idx, false)
      | some (t, inv) =>
        match parseKeyToNameIdx t with
        | none => .exn
        | some (nb, ni) =>
          match resolveFinalF fuel m nb ni ((base, idx) :: seen) with
          | .ok (t2, inv2) => .ok (t2, inv.xor inv2)
          | r => r

/-- `resolve_final src_map base idx` with `seen = None`: `none` models a
propagating Python exception. -/
def resolveFinal (m : BitMap) (base : String) (idx : Option Nat) : Option (String × Bool) :=
  match resolveFinalF (bmFuel m) m base idx [] with
  | .ok r => some r
  | _ => none

/-- `make_final_map`: apply `resolve_final` to every stored position,
keeping the two-level structure and its order.  `none` models a Python
exception escaping from some `resolve_final` call. -/
def makeFinalMap (m : BitMap) : Option BitMap :=
  mapMOpt (fun bi =>
    (mapMOpt (fun iv =>
      (resolveFinal m bi.1 iv.1).map (fun r => (iv.1, r))) bi.2).map
    (fun inner => (bi.1, inner))) m

/-! ### Alias chains (walks) and inversion parity -/

/-- A finite alias chain in `m`: successive keys are linked by stored
`(token, invert)` pairs whose tokens parse to the next key, the recorded
`invs` are the per-hop inversion flags, and the final key is terminal (not
stored in the map). -/
def isWalk (m : BitMap) : List Key → List Bool → Bool
  | [k], [] => (lookupBM m k.1 k.2).isNone
  | k :: k2 :: rest, inv :: invs =>
    (match lookupBM m k.1 k.2 with
     | some (t, i) => i == inv && decide (parseKeyToNameIdx t = some k2)
     | none => false) && isWalk m (k2 :: rest) invs
  | _, _ => false

/-- Rebuild the two-level structure of a map with position-dependent
values (the iteration shape of `make_final_map`). -/
def structMap (f : String → Option Nat → String × Bool) : BitMap → BitMap
  | [] => []
  | (b, inner) :: rest =>
    (b, inner.map (fun iv => (iv.1, f b iv.1))) :: structMap f rest

/-- The pure result of `make_final_map` when no exception occurs. -/
def finalizePos (m : BitMap) : BitMap :=
  structMap (fun b i => (resolveFinal m b i).getD (renderToken b i, false)) m

/-- Well-formedness for the amended C1: every stored position starts a
duplicate-free chain in the map whose terminal key re-parses from its own
rendered token. -/
def ResolvedShape (m : BitMap) : Prop :=
  ∀ k ∈ keysList m, ∃ path invs last,
    isWalk m path invs = true ∧ path.Nodup ∧ path.head? = some k ∧
    path.getLast? = some last ∧
    parseKeyToNameIdx (renderToken last.1 last.2) = some last

/-! ### `build_replace_map`: statement processing and dictionary writes -/

/-- Lookup in a `str -> str` Python dictionary (association list). -/
def lookupStr : List (String × String) → String → Option String
  | [], _ => none
  | (k, v) :: rest, s => if k = s then some v else lookupStr rest s

/-- `inner_dict[idx] = v`: overwrite in place, or append a new key. -/
def innerInsert : List (Option Nat × (String × Bool)) → Option Nat → (String × Bool) →
    List (Option Nat × (String × Bool))
  | [], i, v => [(i, v)]
  | (j, w) :: rest, i, v =>
    if j = i then (j, v) :: rest else (j, w) :: innerInsert rest i v

/-- `mp[base][idx] = v` with `defaultdict(dict)` semantics. -/
def bmInsert : BitMap → String → Option Nat → (String × Bool) → BitMap
  | [], b, i, v => [(b, [(i, v)])]
  | (b0, inner) :: rest, b, i, v =>
    if b0 = b then (b0, innerInsert inner i v) :: rest
    else (b0, inner) :: bmInsert rest b i v

/-- The loop body of `build_replace_map` for one matched `assign`
statement `(lhs, rhs)`: the alias entries it contributes, in order.
`none` models the `AttributeError` escaping from `decompose_lhs`;
`some []` is a skipped statement (port base, non-matching pattern, or a
right-hand side that does not explode).
The full-vector expansion of the LHS positions comes first: a bare
`[None]` placeholder becomes the enumerated bit list when the declared
width is a literal range. -/
def lhsIdxList (declWidths : List (String × String)) (base : String)
    (idxs0 : List (Option Nat)) : List (Option Nat) :=
  if idxs0 = [none] then
    match parseWidthRange ((lookupStr declWidths base).getD "") with
    | some (hi, lo) => (iterSliceIndices hi lo).map some
    | none => idxs0
  else idxs0

def stmtEntries (pat : String → Bool) (skipPorts : List String)
    (declWidths : List (String × String)) (stmt : String × String) :
    Option (List (Key × (String × Bool))) :=
  match decomposeLhs (strStrip stmt.1) with
  | none => none
  | some (base, idxs0) =>
    if base ∈ skipPorts then some []
    else if ¬ pat base then some []
    else
      match explodeRhsAsRefs (strStrip stmt.2) (lhsIdxList declWidths base idxs0).length with
      | none => some []
      | some refs =>
        if refs = [] then some []
        else some (((lhsIdxList declWidths base idxs0).zip refs).map
          (fun p => ((base, p.1), p.2)))

/-- The folding loop of `build_replace_map` over the matched statements,
threading the two-level dictionary. -/
def buildRMAux (pat : String → Bool) (skipPorts : List String)
    (declWidths : List (String × String)) :
    BitMap → List (String × String) → Option BitMap
  | acc, [] => some acc
  | acc, st :: rest =>
    match stmtEntries pat skipPorts declWidths st with
    | none => none
    | some es =>
      buildRMAux pat skipPorts declWidths
        (es.foldl (fun a e => bmInsert a e.1.1 e.1.2 e.2) acc) rest

/-- `build_replace_map`, with the `ASSIGN_RE.finditer` matches supplied as
the list of raw `(lhs, rhs)` groups in top-to-bottom source order and the
compiled `--lhs-pattern` search supplied as the predicate `pat`. -/
def buildReplaceMap (stmts : List (String × String)) (pat : String → Bool)
    (skipPorts : List String) (declWidths : List (String × String)) : Option BitMap :=
  buildRMAux pat skipPorts declWidths [] stmts

/-- The value written last for key `k` by a list of entries (later entries
overwrite earlier ones). -/
def lastMatch (k : Key) : List (Key × (String × Bool)) → Option (String × Bool)
  | [] => none
  | e :: tl =>
    match lastMatch k tl with
    | some v => some v
    | none => if e.1 = k then some e.2 else none

/-- The value for key `k` contributed by the statement occurring latest in
source order among those that define `k`. -/
def lastContrib (pat : String → Bool) (sp : List String)
    (w : List (String × String)) (k : Key) : List (String × String) → Option (String × Bool)
  | [] => none
  | st :: rest =>
    match lastContrib pat sp w k rest with
    | some v => some v
    | none => lastMatch k ((stmtEntries pat sp w st).getD [])

/-! ### `collect_decl_widths`: first width wins -/

/-- Python `"...".split(',')` on a character list. -/
def splitComma : List Char → List (List Char)
  | [] => [[]]
  | c :: cs =>
    if c = ',' then [] :: splitComma cs
    else
      match splitComma cs with
      | [] => [[c]]
      | p :: ps => (c :: p) :: ps

/-- The identifier extracted from one comma-separated declaration part:
`re.match(r'^([A-Za-z_]\w*)', name.strip())`. -/
def partName (p : List Char) : Option String :=
  (identHead (pyStrip p)).map (fun q => (⟨q.1⟩ : String))

/-- One name of a width-bearing declaration: insert only when absent. -/
def declPartStep (width : String) (ws : List (String × String)) (p : List Char) :
    List (String × String) :=
  match partName p with
  | some nm => if (lookupStr ws nm).isSome then ws else ws ++ [(nm, width)]
  | none => ws

/-- One `DECL_RE_LINE` match `(raw width group, names part)` of
`collect_decl_widths`: skip the whole match when the stripped width is
empty, else process the comma-separated names. -/
def declStep (ws : List (String × String)) (d : String × String) :
    List (String × String) :=
  let width := strStrip d.1
  if width = "" then ws
  else (splitComma d.2.data).foldl (declPartStep width) ws

/-- One `PORT_DECL_WITH_WIDTH_RE` match `(raw width group, name)`:
insert only when the stripped width is nonempty and the name is absent. -/
def portStep (ws : List (String × String)) (pr : String × String) :
    List (String × String) :=
  let width := strStrip pr.1
  if width ≠ "" ∧ (lookupStr ws pr.2).isNone then ws ++ [(pr.2, width)] else ws

/-- `collect_decl_widths`, with the `DECL_RE_LINE` matches and the
`PORT_DECL_WITH_WIDTH_RE` matches supplied in source order. -/
def collectDeclWidths (decls ports : List (String × String)) :
    List (String × String) :=
  ports.foldl portStep (decls.foldl declStep [])

/-- The width of the earliest `wire|logic|reg` declaration carrying a
literal width whose name list contains `name`. -/
def firstDeclWidth (name : String) : List (String × String) → Option String
  | [] => none
  | d :: rest =>
    if strStrip d.1 ≠ "" ∧
        (splitComma d.2.data).any (fun p => decide (partName p = some name))
    then some (strStrip d.1)
    else firstDeclWidth name rest

/-- The width of the earliest width-bearing port declaration of `name`. -/
def firstPortWidth (name : String) : List (String × String) → Option String
  | [] => none
  | pr :: rest =>
    if strStrip pr.1 ≠ "" ∧ pr.2 = name then some (strStrip pr.1)
    else firstPortWidth name rest

/-! ### Token scanning and the rewriter -/

/-- One attempt of the optional `\[\d+(?::\d+)?\]` unit of
`IDENT_OR_INDEX_RE` (and of `REPL_RE`'s unit): returns the matched text
and the rest, or `none` when the unit does not match as a whole. -/
def bracketUnit : List Char → Option (List Char × List Char)
  | '[' :: r =>
    (match r.takeWhile Char.isDigit, r.dropWhile Char.isDigit with
     | [], _ => none
     | ds, r2 =>
       match r2 with
       | ']' :: r3 => some ('[' :: ds ++ [']'], r3)
       | ':' :: r4 =>
         (match r4.takeWhile Char.isDigit, r4.dropWhile Char.isDigit with
          | [], _ => none
          | ds2, r5 =>
            match r5 with
            | ']' :: r6 => some ('[' :: ds ++ ':' :: ds2 ++ [']'], r6)
            | _ => none)
       | _ => none)
  | _ => none

/-- The `IDENT_OR_INDEX_RE` match attempt at the current position:
`[A-Za-z_]\w*` plus an optional full bracket unit. -/
def tokenAt (l : List Char) : Option (List Char × List Char) :=
  match identHead l with
  | none => none
  | some (w, r) =>
    match bracketUnit r with
    | some (br, r2) => some (w ++ br, r2)
    | none => some (w, r)

/-- `IDENT_OR_INDEX_RE.findall`, scanning left to right (fuel-indexed;
each step consumes at least one character, so `length` fuel suffices). -/
def findTokensF : Nat → List Char → List (List Char)
  | 0, _ => []
  | _, [] => []
  | fuel + 1, c :: cs =>
    match tokenAt (c :: cs) with
    | some (t, r) => t :: findTokensF fuel r
    | none => findTokensF fuel cs

/-- `IDENT_OR_INDEX_RE.findall(line)` as strings. -/
def findTokens (s : String) : List String :=
  (findTokensF s.data.length s.data).map (fun t => (⟨t⟩ : String))

/-- `IDENT_OR_INDEX_RE.sub(repl, s)`: replace every matched token by
`f token`, leaving the rest of the text untouched. -/
def identSubF : Nat → (String → String) → List Char → List Char
  | 0, _, l => l
  | _, _, [] => []
  | fuel + 1, f, c :: cs =>
    match tokenAt (c :: cs) with
    | some (t, r) => (f ⟨t⟩).data ++ identSubF fuel f r
    | none => c :: identSubF fuel f cs

def identSub (f : String → String) (s : String) : String :=
  ⟨identSubF s.data.length f s.data⟩

/-- One `DOUBLE_NEG_RE` (`~\s*~\s*`) match attempt at the current
position, returning the remainder after the matched text. -/
def dnMatch : List Char → Option (List Char)
  | '~' :: r =>
    (match r.dropWhile pySpace with
     | '~' :: r2 => some (r2.dropWhile pySpace)
     | _ => none)
  | _ => none

/-- One `DOUBLE_NEG_RE.sub('', expr)` pass. -/
def doubleNegOnceF : Nat → List Char → List Char
  | 0, l => l
  | _, [] => []
  | fuel + 1, c :: cs =>
    match dnMatch (c :: cs) with
    | some r => doubleNegOnceF fuel r
    | none => c :: doubleNegOnceF fuel cs

/-- `collapse_double_neg`: substitute until a fixed point is reached (a
changing pass strictly shrinks the text, so `length + 1` rounds always
reach the fixed point). -/
def collapseDoubleNegF : Nat → List Char → List Char
  | 0, l => l
  | fuel + 1, l =>
    let l2 := doubleNegOnceF l.length l
    if l2 = l then l else collapseDoubleNegF fuel l2

def collapseDoubleNeg (s : String) : String :=
  ⟨collapseDoubleNegF (s.data.length + 1) s.data⟩

/-- `_assemble_parts`: per-bit keys through the replacement table, keeping
the key itself when the table has no entry. -/
def assembleParts (name : String) (idxs : List Nat)
    (replTable : List (String × String)) : List String :=
  idxs.map (fun i =>
    let key := name ++ "[" ++ Nat.repr i ++ "]"
    (lookupStr replTable key).getD key)

/-- `f"{{{n}{{{p}}}}}"`: a replication literal. -/
def renderReplication (n : Nat) (p : String) : String :=
  "\x7b" ++ Nat.repr n ++ "\x7b" ++ p ++ "\x7d\x7d"

/-- `"{" + ", ".join(parts) + "}"`: an explicit concatenation. -/
def renderConcat (parts : List String) : String :=
  "\x7b" ++ String.intercalate ", " parts ++ "\x7d"

/-- `_compact_slice_from_parts`: compress `["bus[7]", "bus[6]", ...]` back
into `bus[7:4]` when the bits are one net in a contiguous ±1 run. -/
def compactSliceFromParts (parts : List String) : Option String :=
  if parts.length < 2 then none
  else
    match mapMOpt (fun p => matchIndex (strStrip p)) parts with
    | none => none
    | some parsed =>
      match parsed with
      | [] => none
      | q0 :: qs =>
        if ¬ qs.all (fun q => q.1 == q0.1) then none
        else
          let idxList := (q0 :: qs).map (fun q => (q.2 : Int))
          match (idxList.zip idxList.tail).map (fun ab => ab.2 - ab.1) with
          | [] => none
          | d0 :: ds =>
            if ¬ ds.all (fun d => d == d0) then none
            else if d0 ≠ -1 ∧ d0 ≠ 1 then none
            else
              let first := q0.2
              let final := ((q0 :: qs).getLast (by simp)).2
              let hi := if d0 = 1 then final else first
              let lo := if d0 = 1 then first else final
              some (q0.1 ++ "[" ++ Nat.repr hi ++ ":" ++ Nat.repr lo ++ "]")

/-- The recompaction block shared by the two branches of
`_replace_token` (the source inlines this block twice, verbatim):
empty → the original token, singleton → the part itself, all equal →
replication, contiguous run → slice, otherwise concatenation. -/
def compactParts (tok : String) (parts : List String) : String :=
  match parts with
  | [] => tok
  | [p] => p
  | p0 :: _ =>
    if parts.all (fun p => p == p0) then renderReplication parts.length p0
    else
      match compactSliceFromParts parts with
      | some c => c
      | none => renderConcat parts

/-- `_replace_token`. -/
def replaceToken (tok : String) (replTable declWidths : List (String × String))
    (allowVectorAssembly : Bool) : String :=
  match matchSlice tok with
  | some (name, hi, lo) =>
    compactParts tok (assembleParts name (iterSliceIndices hi lo) replTable)
  | none =>
    match lookupStr replTable tok with
    | some v => v
    | none =>
      match
        (if allowVectorAssembly
         then parseWidthRange ((lookupStr declWidths tok).getD "")
         else none) with
      | some (hi, lo) =>
        compactParts tok (assembleParts tok (iterSliceIndices hi lo) replTable)
      | none => tok

/-! ### Per-line `ASSIGN_RE` and `DECL_RE_LINE` -/

/-- Drop a literal prefix, or fail. -/
def dropLit : List Char → List Char → Option (List Char)
  | [], l => some l
  | c :: cs, d :: ds => if c = d then dropLit cs ds else none
  | _ :: _, [] => none

/-- The `\s*(//.*)?$` check after the chosen `;`: all-whitespace, or
whitespace followed by a `//` comment reaching the end of the line. -/
def suffixOk (suf : List Char) : Bool × Option String :=
  match suf.dropWhile pySpace with
  | '/' :: '/' :: rest => (true, some ⟨'/' :: '/' :: rest⟩)
  | [] => (true, none)
  | _ => (false, none)

/-- Scan for the first `;` that makes `(.+?)\s*;\s*(//.*)?$` succeed: the
segment before it must be nonempty and the suffix after it must pass
`suffixOk` (non-greedy `.+?` tries the leftmost such `;` first and may
swallow earlier semicolons whose suffix fails). -/
def findSemi : Nat → List Char → List Char → Option (List Char × Option String)
  | 0, _, _ => none
  | _, _, [] => none
  | fuel + 1, pre, c :: cs =>
    if c = ';' then
      if pre ≠ [] ∧ (suffixOk cs).1 then some (pre.reverse, (suffixOk cs).2)
      else findSemi fuel (c :: pre) cs
    else findSemi fuel (c :: pre) cs

/-- The text captured by `[^=]+?` between greedy `\s+` and `\s*=`: the
stripped segment when it has non-whitespace; when the segment is all
whitespace, `\s+` backtracks to leave a single whitespace character for
the group (and fails if it cannot).  The segment must begin with
whitespace for `\s+`. -/
def lhsGroupOf (z : List Char) : Option (List Char) :=
  match z with
  | [] => none
  | c :: _ =>
    if ¬ pySpace c then none
    else if z.dropWhile pySpace ≠ [] then some (pyStrip z)
    else
      match z.reverse with
      | lastc :: _ :: _ => some [lastc]
      | _ => none

/-- The text captured by `(.+?)` between greedy `\s*` and `\s*;`: as for
the LHS but with a possibly empty whitespace prefix. -/
def rhsGroupOf (seg : List Char) : Option (List Char) :=
  match seg with
  | [] => none
  | _ =>
    if seg.dropWhile pySpace ≠ [] then some (pyStrip seg)
    else
      match seg.reverse with
      | lastc :: _ => some [lastc]
      | [] => none

/-- `ASSIGN_RE.match(line)` for a single physical line: returns the
`lhs`, `rhs` and optional `comment` groups. -/
def assignMatch (line : String) : Option (String × String × Option String) :=
  match dropLit "assign".data (line.data.dropWhile pySpace) with
  | none => none
  | some l2 =>
    let z := l2.takeWhile (fun c => ¬ c = '=')
    match l2.dropWhile (fun c => ¬ c = '='), lhsGroupOf z with
    | '=' :: afterEq, some lhs =>
      (match findSemi (afterEq.length + 1) [] afterEq with
       | none => none
       | some (seg, cm) =>
         match rhsGroupOf seg with
         | some rhs => some (⟨lhs⟩, ⟨rhs⟩, cm)
         | none => none)
    | _, _ => none

/-- The `(wire|logic|reg)` alternation. -/
def declKw (l : List Char) : Option (List Char × List Char) :=
  match dropLit "wire".data l with
  | some r => some ("wire".data, r)
  | none =>
    match dropLit "logic".data l with
    | some r => some ("logic".data, r)
    | none =>
      match dropLit "reg".data l with
      | some r => some ("reg".data, r)
      | none => none

/-- The tail `\s*([^;]+);\s*$` with no width group: returns
`(whitespace consumed, names group, post text)`. -/
def tailNoG3 (r : List Char) : Option (List Char × List Char × List Char) :=
  let wsA := r.takeWhile pySpace
  let r1 := r.dropWhile pySpace
  let g4a := r1.takeWhile (fun c => ¬ c = ';')
  match r1.dropWhile (fun c => ¬ c = ';') with
  | ';' :: t2 =>
    if t2.dropWhile pySpace = [] then
      if g4a ≠ [] then some (wsA, g4a, ';' :: t2)
      else
        match wsA.reverse with
        | lastc :: wsrest => some (wsrest.reverse, [lastc], ';' :: t2)
        | [] => none
    else none
  | _ => none

/-- The tail `\s*(\[[^]]+\]\s*)([^;]+);\s*$` with the width group
present: returns `(consumed prefix, captured width group, names group,
post text)`.  The group's trailing `\s*` backtracks to keep `[^;]+`
nonempty. -/
def tailWithG3 (r : List Char) :
    Option (List Char × List Char × List Char × List Char) :=
  let wsA := r.takeWhile pySpace
  match r.dropWhile pySpace with
  | '[' :: rb =>
    let inner := rb.takeWhile (fun c => ¬ c = ']')
    (match inner.isEmpty, rb.dropWhile (fun c => ¬ c = ']') with
     | false, ']' :: after =>
       let wsB := after.takeWhile pySpace
       let after1 := after.dropWhile pySpace
       let g4a := after1.takeWhile (fun c => ¬ c = ';')
       (match after1.dropWhile (fun c => ¬ c = ';') with
        | ';' :: t2 =>
          if t2.dropWhile pySpace = [] then
            if g4a ≠ [] then
              some (wsA ++ '[' :: inner ++ ']' :: wsB,
                '[' :: inner ++ ']' :: wsB, g4a, ';' :: t2)
            else
              match wsB.reverse with
              | lastc :: wsrest =>
                some (wsA ++ '[' :: inner ++ ']' :: wsrest.reverse,
                  '[' :: inner ++ ']' :: wsrest.reverse, [lastc], ';' :: t2)
              | [] => none
          else none
        | _ => none)
     | _, _ => none)
  | _ => none

/-- First alternative that succeeds. -/
def firstSome : List α → (α → Option β) → Option β
  | [], _ => none
  | a :: rest, f =>
    match f a with
    | some b => some b
    | none => firstSome rest f

/-- `DECL_RE_LINE.match(line)` for a single physical line: returns
`(pre, width group (or empty), names group, post)` with
`line = pre ++ names ++ post`; `pre` covers everything before the names
group (`line[:start(4)]`) and `post` everything after (`line[end(4):]`).
Alternatives are tried in the regex engine's order: `signed` present
before absent, width group present before absent. -/
def declLineMatch (line : String) : Option (String × String × String × String) :=
  let ws0 := line.data.takeWhile pySpace
  match declKw (line.data.dropWhile pySpace) with
  | none => none
  | some (kw, r0) =>
    let withSigned : List (List Char × List Char) :=
      if r0.takeWhile pySpace ≠ [] then
        match dropLit "signed".data (r0.dropWhile pySpace) with
        | some r1 => [(r0.takeWhile pySpace ++ "signed".data, r1)]
        | none => []
      else []
    firstSome (withSigned ++ [([], r0)]) (fun sg =>
      match tailWithG3 sg.2 with
      | some (pre3, g3, g4, post) =>
        some (⟨ws0 ++ kw ++ sg.1 ++ pre3⟩, ⟨g3⟩, ⟨g4⟩, ⟨post⟩)
      | none =>
        match tailNoG3 sg.2 with
        | some (wsA, g4, post) =>
          some (⟨ws0 ++ kw ++ sg.1 ++ wsA⟩, "", ⟨g4⟩, ⟨post⟩)
        | none => none)

/-! ### `prune_unused_assigns_and_decls` -/

/-- `re.findall(r'[A-Za-z_]\w*', s)`: plain identifiers only. -/
def findIdentsF : Nat → List Char → List (List Char)
  | 0, _ => []
  | _, [] => []
  | fuel + 1, c :: cs =>
    match identHead (c :: cs) with
    | some (w, r) => w :: findIdentsF fuel r
    | none => findIdentsF fuel cs

def findIdents (s : String) : List String :=
  (findIdentsF s.data.length s.data).map (fun w => (⟨w⟩ : String))

/-- `(INDEX_RE.match(lhs) or SLICE_RE.match(lhs) or
BARE_RE.match(lhs))`, yielding the `name` group when one matches. -/
def mmBaseName (lhs : String) : Option String :=
  match matchIndex lhs with
  | some (n, _) => some n
  | none =>
    match matchSlice lhs with
    | some (n, _, _) => some n
    | none => matchBare lhs

/-- `t.split('[')[0]`. -/
def baseOfTok (t : String) : String :=
  ⟨t.data.takeWhile (fun c => ¬ c = '[')⟩

/-- The base name recorded for an assign line during the counting pass
(`None` when the line is not an assign or its LHS matches no shape). -/
def lineAssignName (line : String) : Option String :=
  match assignMatch line with
  | none => none
  | some (lhs, _, _) => mmBaseName (strStrip lhs)

/-- The per-line exclusion set of the counting pass: the assign line's
own LHS base, and all identifiers of a declaration's name list. -/
def lineExclude (line : String) : List String :=
  (match lineAssignName line with
   | some n => [n]
   | none => []) ++
  (match declLineMatch line with
   | some q => findIdents q.2.2.1
   | none => [])

/-- Occurrences of `n` contributed by one line: zero when `n` is excluded
on this line, else the number of matched tokens whose base is `n`. -/
def lineCount (line : String) (n : String) : Nat :=
  if n ∈ lineExclude line then 0
  else ((findTokens line).filter (fun t => baseOfTok t == n)).length

/-- The liveness count of `n` over the whole text. -/
def usesCount (lines : List String) (n : String) : Nat :=
  (lines.map (fun line => lineCount line n)).sum

def lookupNat : List (String × Nat) → String → Option Nat
  | [], _ => none
  | (k, v) :: rest, s => if k = s then some v else lookupNat rest s

/-- `uses[base] += 1` on the counter dictionary. -/
def bumpNat : List (String × Nat) → String → List (String × Nat)
  | [], _ => []
  | (k, c) :: rest, b =>
    if k = b then (k, c + 1) :: rest else (k, c) :: bumpNat rest b

/-- The token loop of the counting pass for one line. -/
def lineUsesStep (targets : List String) (acc : List (String × Nat))
    (line : String) : List (String × Nat) :=
  (findTokens line).foldl (fun a t =>
    let b := baseOfTok t
    if b ∈ targets ∧ b ∉ lineExclude line then bumpNat a b else a) acc

/-- The `uses` dictionary after the counting pass. -/
def usesMap (lines : List String) (targets : List String) : List (String × Nat) :=
  lines.foldl (lineUsesStep targets) (targets.map (fun n => (n, 0)))

/-- `to_remove = {n for n, c in uses.items() if c == 0}`. -/
def toRemove (lines : List String) (targets : List String) : List String :=
  targets.filter (fun n => (lookupNat (usesMap lines targets) n).getD 0 == 0)

/-- The declaration/fallthrough part of the output loop: filter dead
names out of a declaration's comma list, drop the line when nothing
remains, reassemble otherwise; non-declaration lines pass unchanged. -/
def pruneDeclOrKeep (rm : List String) (line : String) : Option String :=
  match declLineMatch line with
  | some (pre, _, names, post) =>
    let parts := (splitComma names.data).map pyStrip
    let keep := parts.filter (fun p =>
      match identHead p with
      | none => true
      | some (w, _) => ¬ ((⟨w⟩ : String) ∈ rm))
    if keep = [] then none
    else
      some (pre ++ String.intercalate ", " (keep.map (fun p => (⟨p⟩ : String))) ++ post)
  | none => some line

/-- The output loop for one line; the outer `none` models the
`AttributeError` raised by the unguarded `.group('name')` on an assign
line whose LHS matches no shape, `some none` a deleted line. -/
def pruneLine (rm : List String) (line : String) : Option (Option String) :=
  match assignMatch line with
  | some (lhs, _, _) =>
    (match mmBaseName (strStrip lhs) with
     | none => none
     | some b => if b ∈ rm then some none else some (pruneDeclOrKeep rm line))
  | none => some (pruneDeclOrKeep rm line)

/-- `prune_unused_assigns_and_decls` over the split lines: compute the
counters, return the text unchanged when nothing is dead, otherwise run
the output loop (`none` models the exception). -/
def pruneLines (lines : List String) (targets : List String) : Option (List String) :=
  let rm := toRemove lines targets
  if rm = [] then some lines
  else (mapMOpt (pruneLine rm) lines).map (fun ol => ol.filterMap id)

/-! ### C8: characterizing the pruning pass -/

/-- The dead set as the claim words it: targeted names with zero counted
occurrences. -/
def specDead (lines : List String) (targets : List String) : List String :=
  targets.filter (fun n => usesCount lines n == 0)

/-- The per-line disposition as the claim words it: a driving statement
with a dead LHS base is deleted entirely; a declaration line loses its
dead names (deleted when the list empties, reassembled otherwise); every
other line passes through. -/
def specDispose (dead : List String) (line : String) : Option String :=
  match assignMatch line with
  | some (lhs, _, _) =>
    (match mmBaseName (strStrip lhs) with
     | some b => if b ∈ dead then none else some line
     | none => some line)
  | none =>
    match declLineMatch line with
    | some (pre, _, names, post) =>
      let parts := (splitComma names.data).map pyStrip
      let keep := parts.filter (fun p =>
        match identHead p with
        | none => true
        | some (w, _) => ¬ ((⟨w⟩ : String) ∈ dead))
      if keep = [] then none
      else
        some (pre ++ String.intercalate ", " (keep.map (fun p => (⟨p⟩ : String))) ++ post)
    | none => some line

/-! ### `build_repl_table`, the rewrite pass, ports, and the pipeline -/

/-- `table[tok] = value` with Python-dict overwrite semantics. -/
def strInsert : List (String × String) → String → String → List (String × String)
  | [], k, v => [(k, v)]
  | (k0, v0) :: rest, k, v =>
    if k0 = k then (k0, v) :: rest else (k0, v0) :: strInsert rest k v

/-- `build_repl_table`: token text to replacement text, inversion
rendered as a `~` prefix. -/
def buildReplTable (fm : BitMap) : List (String × String) :=
  fm.foldl (fun tb bi =>
    bi.2.foldl (fun tb2 iv =>
      strInsert tb2 (renderToken bi.1 iv.1)
        (if iv.2.2 then "~" ++ iv.2.1 else iv.2.1)) tb) []

/-- `_should_collapse_lhs` (its `slice_m` argument is only tested for
truthiness at the call site and is dropped here): the rewritten RHS is a
brace-enclosed, comma-free expression. -/
def shouldCollapseLhs (newRhs : String) : Bool :=
  let expr := strStrip newRhs
  if expr = "" then false
  else
    decide (expr.data.head? = some '\x7b') &&
    decide (expr.data.getLast? = some '\x7d') &&
    !(expr.data.contains ',')

/-- `replace_in_rhs_only`. -/
def replaceInRhsOnly (line : String) (replTable declWidths : List (String × String)) :
    String :=
  match assignMatch line with
  | none => line
  | some (lhs, rhs, comment) =>
    let indent : String := ⟨line.data.takeWhile pySpace⟩
    let sliceM := matchSlice (strStrip lhs)
    let newRhs := collapseDoubleNeg
      (identSub (fun tok => replaceToken tok replTable declWidths true) rhs)
    let lhsRender :=
      match sliceM with
      | some (base, _, _) =>
        if shouldCollapseLhs newRhs then
          match lookupStr declWidths base with
          | some width =>
            -- the raw `[hi:lo]` text of the LHS slice (SLICE_RE admits no
            -- internal whitespace, so it is the stripped LHS minus the base)
            let sliceTxt := (strStrip lhs).data.drop base.length
            if width.data.filter (fun c => ¬ c = ' ')
                = sliceTxt.filter (fun c => ¬ c = ' ') then
              base
            else lhs
          | none => lhs
        else lhs
      | none => lhs
    let suffix :=
      match comment with
      | some cm => " " ++ cm
      | none => ""
    indent ++ "assign " ++ lhsRender ++ " = " ++ newRhs ++ ";" ++ suffix

/-- `global_replace_line`: identifier substitution with
`allow_vector_assembly=False`. -/
def globalReplaceLine (line : String) (replTable declWidths : List (String × String)) :
    String :=
  identSub (fun tok => replaceToken tok replTable declWidths false) line

/-- `collect_assign_lhs_names` over the lines. -/
def collectAssignLhsNames (lines : List String) (pat : String → Bool) : List String :=
  lines.flatMap (fun line =>
    match assignMatch line with
    | none => []
    | some (lhs, _, _) =>
      match mmBaseName (strStrip lhs) with
      | none => []
      | some base => if pat base then [base] else [])

/-- The `(lhs, rhs)` groups of the `ASSIGN_RE` matches, line by line. -/
def assignStmtsOfLines (lines : List String) : List (String × String) :=
  lines.filterMap (fun line => (assignMatch line).map (fun r => (r.1, r.2.1)))

/-- One port-direction keyword with the following `\b`. -/
def portKwOne (lit : String) (l : List Char) : Option (List Char) :=
  match dropLit lit.data l with
  | some r =>
    (match r.head? with
     | some c => if isWordChar c then none else some r
     | none => some r)
  | none => none

/-- `\b(input|output|inout)\b` at the current position (the preceding
boundary is checked by the caller). -/
def portKw (l : List Char) : Option (List Char) :=
  match portKwOne "input" l with
  | some r => some r
  | none =>
    match portKwOne "output" l with
    | some r => some r
    | none => portKwOne "inout" l

/-- One `\s+(?:wire|logic|reg|signed|unsigned)` qualifier unit. -/
def qualOne (r : List Char) : Option (List Char) :=
  if r.takeWhile pySpace = [] then none
  else
    let r1 := r.dropWhile pySpace
    firstSome ["wire", "logic", "reg", "signed", "unsigned"] (fun kw =>
      dropLit (String.data kw) r1)

/-- The backtracking positions of the qualifier star, greediest first
(fuel-indexed; each unit consumes at least two characters). -/
def qualPositionsF : Nat → List Char → List (List Char)
  | 0, r => [r]
  | fuel + 1, r =>
    match qualOne r with
    | some r2 => qualPositionsF fuel r2 ++ [r]
    | none => [r]

def qualPositions (r : List Char) : List (List Char) :=
  qualPositionsF r.length r

/-- The `\s*(\[[^]]+\])?\s*([A-Za-z_]\w*)` tail of the port regexes,
returning the captured width (or `""`), the name and the remainder. -/
def restPortTailW (r : List Char) : Option (String × String × List Char) :=
  let r1 := r.dropWhile pySpace
  let viaBracket : Option (String × String × List Char) :=
    match r1 with
    | '[' :: rb =>
      let inner := rb.takeWhile (fun c => ¬ c = ']')
      (match inner.isEmpty, rb.dropWhile (fun c => ¬ c = ']') with
       | false, ']' :: after =>
         (match identHead (after.dropWhile pySpace) with
          | some (w, rest) => some (⟨'[' :: inner ++ [']']⟩, ⟨w⟩, rest)
          | none => none)
       | _, _ => none)
    | _ => none
  match viaBracket with
  | some x => some x
  | none =>
    match identHead r1 with
    | some (w, rest) => some ("", ⟨w⟩, rest)
    | none => none

/-- `PORT_INLINE_RE` / `PORT_DECL_WITH_WIDTH_RE` attempt at the current
position (keyword already boundary-checked by the caller): qualifier
positions greediest first, each tried with the width-and-name tail. -/
def portInlineAt (l : List Char) : Option (String × String × List Char) :=
  match portKw l with
  | none => none
  | some r => firstSome (qualPositions r) restPortTailW

/-- Scan one line for inline port matches: at each position with a
non-word (or initial) left context, attempt the match and continue after
it; otherwise advance one character. -/
def portScanF : Nat → Option Char → List Char → List (String × String)
  | 0, _, _ => []
  | _, _, [] => []
  | fuel + 1, prev, c :: cs =>
    if (match prev with
        | some pc => isWordChar pc
        | none => false) then
      portScanF fuel (some c) cs
    else
      match portInlineAt (c :: cs) with
      | some (wdt, name, rest) =>
        (wdt, name) :: portScanF fuel (some (name.data.getLastD 'a')) rest
      | none => portScanF fuel (some c) cs

def portScanLine (line : String) : List (String × String) :=
  portScanF line.data.length none line.data

/-- `PORT_STANDALONE_RE.match` at a line start: like the inline form but
anchored, requiring `\s*;` after the name. -/
def portStandaloneLine (line : String) : Option String :=
  match portKw (line.data.dropWhile pySpace) with
  | none => none
  | some r =>
    firstSome (qualPositions r) (fun q =>
      match restPortTailW q with
      | some (_, n, rest) =>
        if (rest.dropWhile pySpace).head? = some ';' then some n else none
      | none => none)

/-- `parse_ports`, line by line (the result is read only through
membership, mirroring the Python set). -/
def parsePortsLines (lines : List String) : List String :=
  lines.flatMap (fun line => (portScanLine line).map Prod.snd) ++
    lines.filterMap portStandaloneLine

/-- `collect_decl_widths` over the lines: the `DECL_RE_LINE` matches give
`(width group, names part)`, the `PORT_DECL_WITH_WIDTH_RE` matches give
`(width group, name)`. -/
def collectDeclWidthsLines (lines : List String) : List (String × String) :=
  collectDeclWidths
    (lines.filterMap (fun line =>
      (declLineMatch line).map (fun q => (q.2.1, q.2.2.1))))
    (lines.flatMap portScanLine)

/-- The `main` pipeline over the split lines of the input text: scan
ports and widths, build and resolve the alias map, build the table,
rewrite each line, and prune.  `none` models a Python exception. -/
def runPipeline (lines : List String) (pat : String → Bool) : Option (List String) :=
  let ports := parsePortsLines lines
  let declWidths := collectDeclWidthsLines lines
  match buildReplaceMap (assignStmtsOfLines lines) pat ports declWidths with
  | none => none
  | some replaceMap =>
    match makeFinalMap replaceMap with
    | none => none
    | some finalMap =>
      let replTable := buildReplTable finalMap
      let newLines := lines.map (fun line =>
        if (assignMatch line).isSome then replaceInRhsOnly line replTable declWidths
        else if (declLineMatch line).isSome then line
        else globalReplaceLine line replTable declWidths)
      pruneLines newLines (collectAssignLhsNames lines pat)

/-! ## Theorems -/

/-! ### Termination of `resolve_final` -/

/-- One-step unfolding of `resolveFinalF` at positive fuel. -/
lemma resolveFinalF_succ (f : Nat) (m : BitMap) (b : String) (i : Option Nat)
    (seen : List Key) :
    resolveFinalF (f + 1) m b i seen =
      if (b, i) ∈ seen then
        .ok (renderToken b i, false)
      else
        match lookupBM m b i with
        | none => .ok (renderToken b i, false)
        | some (t, inv) =>
          match parseKeyToNameIdx t with
          | none => .exn
          | some (nb, ni) =>
            match resolveFinalF f m nb ni ((b, i) :: seen) with
            | .ok (t2, inv2) => .ok (t2, inv.xor inv2)
            | r => r := rfl

lemma lookupInner_mem {inner : List (Option Nat × (String × Bool))} {i : Option Nat}
    {v : String × Bool} (h : lookupInner inner i = some v) :
    i ∈ inner.map Prod.fst := by
  induction inner with
  | nil => simp [lookupInner] at h
  | cons iv tl ih =>
    obtain ⟨j, w⟩ := iv
    rw [lookupInner] at h
    by_cases hj : j = i
    · subst hj; simp
    · rw [if_neg hj] at h
      simpa using Or.inr (ih h)

lemma lookupBM_mem_keys {m : BitMap} {b : String} {i : Option Nat} {v : String × Bool}
    (h : lookupBM m b i = some v) : (b, i) ∈ keysList m := by
  induction m with
  | nil => simp [lookupBM] at h
  | cons bi rest ih =>
    obtain ⟨b0, inner⟩ := bi
    rw [lookupBM] at h
    by_cases hb : b0 = b
    · subst hb
      rw [if_pos rfl] at h
      have hmem := lookupInner_mem h
      rw [keysList]
      refine List.mem_append_left _ ?_
      obtain ⟨iv, hiv, hfst⟩ := List.mem_map.mp hmem
      exact List.mem_map.mpr ⟨iv, hiv, by simp [hfst]⟩
    · rw [if_neg hb] at h
      rw [keysList]
      exact List.mem_append_right _ (ih h)

/-- Fuel sufficiency: with more fuel than there are map positions outside
`seen`, the resolver never runs out. -/
lemma resolveFinalF_ne_fuelOut :
    ∀ (fuel : Nat) (m : BitMap) (b : String) (i : Option Nat) (seen : List Key),
      ((keysList m).toFinset \ seen.toFinset).card < fuel →
      resolveFinalF fuel m b i seen ≠ .fuelOut := by
  intro fuel
  induction fuel with
  | zero => intro m b i seen h; exact absurd h (Nat.not_lt_zero _)
  | succ f ih =>
    intro m b i seen hcard
    rw [resolveFinalF_succ]
    by_cases hmem : (b, i) ∈ seen
    · simp [hmem]
    · rw [if_neg hmem]
      cases hl : lookupBM m b i with
      | none => simp
      | some tv =>
        obtain ⟨t, inv⟩ := tv
        cases hp : parseKeyToNameIdx t with
        | none => simp [hp]
        | some k2 =>
          obtain ⟨nb, ni⟩ := k2
          have hk : (b, i) ∈ keysList m := lookupBM_mem_keys hl
          have hin : (b, i) ∈ (keysList m).toFinset \ seen.toFinset := by
            simp [List.mem_toFinset, hk, hmem]
          have hstep : ((keysList m).toFinset \ ((b, i) :: seen).toFinset).card < f := by
            have hset : (keysList m).toFinset \ ((b, i) :: seen).toFinset
                = ((keysList m).toFinset \ seen.toFinset).erase (b, i) := by
              ext x
              simp only [List.toFinset_cons, Finset.mem_sdiff, Finset.mem_insert,
                Finset.mem_erase, List.mem_toFinset]
              tauto
            have hpos : 0 < ((keysList m).toFinset \ seen.toFinset).card :=
              Finset.card_pos.mpr ⟨_, hin⟩
            rw [hset, Finset.card_erase_of_mem hin]
            omega
          have hrec := ih m nb ni ((b, i) :: seen) hstep
          cases hr : resolveFinalF f m nb ni ((b, i) :: seen) with
          | fuelOut => exact absurd hr hrec
          | exn => simp [hp, hr]
          | ok r => obtain ⟨t2, inv2⟩ := r; simp [hp, hr]

/-- Toolkit for C3: the initial sdiff bound needed at `bmFuel`. -/
lemma bmFuel_sufficient (m : BitMap) :
    ((keysList m).toFinset \ ([] : List Key).toFinset).card < bmFuel m := by
  have h1 : (keysList m).toFinset.card ≤ (keysList m).length := List.toFinset_card_le _
  simpa [bmFuel] using Nat.lt_succ_of_le h1

/-- C3: For every finite alias map and every key, `resolve_final` terminates:
at the fuel bound `bmFuel` (one more than the number of stored positions)
the recursion never exhausts its fuel, mirroring the fact that the Python
recursion always bottoms out; and whenever the walk revisits a key already
in the `seen` set of the current walk, the function stops at once and
returns that key itself, rendered, with the inversion flag `false`. -/
theorem c3_resolve_final_terminates (m : BitMap) (b : String) (i : Option Nat) :
    resolveFinalF (bmFuel m) m b i [] ≠ .fuelOut ∧
    (∀ (fuel : Nat) (seen : List Key), (b, i) ∈ seen →
      resolveFinalF (fuel + 1) m b i seen = .ok (renderToken b i, false)) := by
  constructor
  · exact resolveFinalF_ne_fuelOut (bmFuel m) m b i [] (bmFuel_sufficient m)
  · intro fuel seen hmem
    rw [resolveFinalF_succ, if_pos hmem]

/-- Witness for C3 at a concrete one-entry cyclic map. -/
theorem c3_resolve_final_terminates_witness :
    resolveFinalF (bmFuel [("a", [(none, ("a", true))])] )
        [("a", [(none, ("a", true))])] "a" none [] ≠ .fuelOut ∧
    resolveFinalF 1 [("a", [(none, ("a", true))])] "a" none [("a", none)]
      = .ok ("a", false) := by
  refine ⟨(c3_resolve_final_terminates [("a", [(none, ("a", true))])] "a" none).1, ?_⟩
  exact (c3_resolve_final_terminates [("a", [(none, ("a", true))])] "a" none).2 0
    [("a", none)] (by simp)

lemma isWalk_nil (m : BitMap) (invs : List Bool) : isWalk m [] invs = false := by
  cases invs <;> rfl

lemma isWalk_single (m : BitMap) (k : Key) :
    isWalk m [k] [] = (lookupBM m k.1 k.2).isNone := rfl

lemma isWalk_single_cons (m : BitMap) (k : Key) (i : Bool) (is0 : List Bool) :
    isWalk m [k] (i :: is0) = false := rfl

lemma isWalk_cons_nil (m : BitMap) (k k2 : Key) (rest : List Key) :
    isWalk m (k :: k2 :: rest) [] = false := rfl

lemma isWalk_cons (m : BitMap) (k k2 : Key) (rest : List Key) (inv : Bool)
    (invs : List Bool) :
    isWalk m (k :: k2 :: rest) (inv :: invs) =
      ((match lookupBM m k.1 k.2 with
        | some (t, i) => i == inv && decide (parseKeyToNameIdx t = some k2)
        | none => false) && isWalk m (k2 :: rest) invs) := rfl

/-- Evaluating the resolver along a duplicate-free chain disjoint from
`seen`: the result is the rendered terminal key coupled with the XOR-fold
of the hop inversions. -/
lemma walk_eval :
    ∀ (path : List Key) (invs : List Bool) (m : BitMap) (fuel : Nat) (seen : List Key)
      (k last : Key),
      isWalk m path invs = true → path.Nodup → (∀ x ∈ path, x ∉ seen) →
      path.head? = some k → path.getLast? = some last → path.length ≤ fuel →
      resolveFinalF fuel m k.1 k.2 seen =
        .ok (renderToken last.1 last.2, invs.foldr Bool.xor false) := by
  intro path
  induction path with
  | nil =>
    intro invs m fuel seen k last hw
    rw [isWalk_nil] at hw
    exact absurd hw (by simp)
  | cons k0 tl ih =>
    intro invs m fuel seen k last hw hnd hdisj hhead hlast hlen
    have hk : k0 = k := by simpa using hhead
    subst hk
    have hne : k0 ∉ seen := hdisj k0 (by simp)
    cases tl with
    | nil =>
      cases invs with
      | nil =>
        rw [isWalk_single] at hw
        have hnone : lookupBM m k0.1 k0.2 = none := by
          simpa [Option.isNone_iff_eq_none] using hw
        have hl0 : k0 = last := by simpa using hlast
        subst hl0
        obtain ⟨f, rfl⟩ : ∃ f, fuel = f + 1 := ⟨fuel - 1, by simp at hlen; omega⟩
        rw [resolveFinalF_succ, if_neg hne]
        simp only [hnone, List.foldr_nil]
      | cons i is0 =>
        rw [isWalk_single_cons] at hw
        exact absurd hw (by simp)
    | cons k1 tl2 =>
      cases invs with
      | nil =>
        rw [isWalk_cons_nil] at hw
        exact absurd hw (by simp)
      | cons inv invs0 =>
        rw [isWalk_cons, Bool.and_eq_true] at hw
        obtain ⟨hstep, hrest⟩ := hw
        cases hl : lookupBM m k0.1 k0.2 with
        | none => rw [hl] at hstep; simp at hstep
        | some tv =>
          obtain ⟨t, i0⟩ := tv
          rw [hl, Bool.and_eq_true] at hstep
          obtain ⟨hi, hp⟩ := hstep
          have hi2 : i0 = inv := by simpa using hi
          subst hi2
          have hp2 : parseKeyToNameIdx t = some k1 := of_decide_eq_true hp
          obtain ⟨f, rfl⟩ : ∃ f, fuel = f + 1 := ⟨fuel - 1, by simp at hlen; omega⟩
          have hnd2 := List.nodup_cons.mp hnd
          have hrec := ih invs0 m f (k0 :: seen) k1 last hrest hnd2.2
            (by
              intro x hx
              simp only [List.mem_cons, not_or]
              refine ⟨?_, hdisj x (List.mem_cons_of_mem _ hx)⟩
              intro hxk
              exact hnd2.1 (hxk ▸ hx))
            rfl
            (by simpa [List.getLast?_cons_cons] using hlast)
            (by simp at hlen ⊢; omega)
          rw [resolveFinalF_succ, if_neg hne]
          simp only [hl, hp2, hrec, List.foldr_cons]

/-- The last key of a chain is terminal (not a key of the map). -/
lemma walk_last_none :
    ∀ (path : List Key) (invs : List Bool) (m : BitMap) (last : Key),
      isWalk m path invs = true → path.getLast? = some last →
      lookupBM m last.1 last.2 = none := by
  intro path
  induction path with
  | nil => intro invs m last hw; rw [isWalk_nil] at hw; exact absurd hw (by simp)
  | cons k0 tl ih =>
    intro invs m last hw hlast
    cases tl with
    | nil =>
      cases invs with
      | nil =>
        rw [isWalk_single] at hw
        have hl0 : k0 = last := by simpa using hlast
        subst hl0
        simpa [Option.isNone_iff_eq_none] using hw
      | cons i is0 => rw [isWalk_single_cons] at hw; exact absurd hw (by simp)
    | cons k1 tl2 =>
      cases invs with
      | nil => rw [isWalk_cons_nil] at hw; exact absurd hw (by simp)
      | cons inv invs0 =>
        rw [isWalk_cons, Bool.and_eq_true] at hw
        exact ih invs0 m last hw.2 (by simpa [List.getLast?_cons_cons] using hlast)

/-- Every non-terminal key of a chain is a stored position of the map. -/
lemma walk_dropLast_some :
    ∀ (path : List Key) (invs : List Bool) (m : BitMap),
      isWalk m path invs = true →
      ∀ x ∈ path.dropLast, (lookupBM m x.1 x.2).isSome := by
  intro path
  induction path with
  | nil => intro invs m hw; rw [isWalk_nil] at hw; exact absurd hw (by simp)
  | cons k0 tl ih =>
    intro invs m hw x hx
    cases tl with
    | nil => simp [List.dropLast] at hx
    | cons k1 tl2 =>
      cases invs with
      | nil => rw [isWalk_cons_nil] at hw; exact absurd hw (by simp)
      | cons inv invs0 =>
        rw [isWalk_cons, Bool.and_eq_true] at hw
        obtain ⟨hstep, hrest⟩ := hw
        rw [List.dropLast_cons₂, List.mem_cons] at hx
        rcases hx with hx | hx
        · subst hx
          cases hl : lookupBM m x.1 x.2 with
          | none => rw [hl] at hstep; simp at hstep
          | some tv => simp
        · exact ih invs0 m hrest x hx

/-- A duplicate-free chain is no longer than `bmFuel`. -/
lemma walk_length_le (m : BitMap) (path : List Key) (invs : List Bool)
    (hw : isWalk m path invs = true) (hnd : path.Nodup) :
    path.length ≤ bmFuel m := by
  have hne : path ≠ [] := by
    intro h; subst h; rw [isWalk_nil] at hw; exact absurd hw (by simp)
  have hnd2 : path.dropLast.Nodup := hnd.sublist (List.dropLast_sublist path)
  have hsub : path.dropLast.toFinset ⊆ (keysList m).toFinset := by
    intro x hx
    rw [List.mem_toFinset] at hx ⊢
    have hsome := walk_dropLast_some path invs m hw x hx
    obtain ⟨v, hv⟩ := Option.isSome_iff_exists.mp hsome
    exact lookupBM_mem_keys hv
  have hcard : path.dropLast.length ≤ (keysList m).length := by
    calc path.dropLast.length = path.dropLast.toFinset.card :=
          (List.toFinset_card_of_nodup hnd2).symm
      _ ≤ (keysList m).toFinset.card := Finset.card_le_card hsub
      _ ≤ (keysList m).length := List.toFinset_card_le _
  have hlen : path.dropLast.length = path.length - 1 := List.length_dropLast path
  have hpos : 0 < path.length := List.length_pos.mpr hne
  rw [bmFuel]
  omega

/-- XOR-fold equals parity of the number of `true` flags. -/
lemma foldr_xor_eq_odd_count (invs : List Bool) :
    invs.foldr Bool.xor false = decide (Odd (invs.count true)) := by
  induction invs with
  | nil => simp
  | cons b bs ih =>
    rw [List.foldr_cons, ih]
    cases b
    · simp [List.count_cons]
    · have hc : List.count true (true :: bs) = List.count true bs + 1 := by
        simp [List.count_cons]
      rw [hc]
      simp only [Nat.odd_add_one, decide_not, Bool.true_xor]

/-- `resolve_final` evaluated along a duplicate-free chain. -/
lemma resolveFinal_of_walk (m : BitMap) (path : List Key) (invs : List Bool)
    (k last : Key) (hw : isWalk m path invs = true) (hnd : path.Nodup)
    (hhead : path.head? = some k) (hlast : path.getLast? = some last) :
    resolveFinal m k.1 k.2 =
      some (renderToken last.1 last.2, invs.foldr Bool.xor false) := by
  rw [resolveFinal, walk_eval path invs m (bmFuel m) [] k last hw hnd
    (by intro x hx; simp) hhead hlast (walk_length_le m path invs hw hnd)]

/-- C4: along an acyclic (duplicate-free) alias chain ending in a terminal
token, `resolve_final` returns that terminal token with the invert flag
true exactly when the number of inverting hops is odd. -/
theorem c4_inversion_parity (m : BitMap) (path : List Key) (invs : List Bool)
    (k last : Key) (hw : isWalk m path invs = true) (hnd : path.Nodup)
    (hhead : path.head? = some k) (hlast : path.getLast? = some last) :
    resolveFinal m k.1 k.2 =
      some (renderToken last.1 last.2, decide (Odd (invs.count true))) := by
  rw [resolveFinal_of_walk m path invs k last hw hnd hhead hlast,
    foldr_xor_eq_odd_count]

/-- Witness for C4: `a = ~b; b = c` resolves `a` to `c` inverted (one
inverting hop), matching the spec example. -/
theorem c4_inversion_parity_witness :
    resolveFinal [("a", [(none, ("b", true))]), ("b", [(none, ("c", false))])] "a" none
      = some ("c", true) := by
  have h := c4_inversion_parity
    [("a", [(none, ("b", true))]), ("b", [(none, ("c", false))])]
    [("a", none), ("b", none), ("c", none)] [true, false] ("a", none) ("c", none)
    (by decide) (by decide) (by decide) (by decide)
  simpa using h

/-! ### Idempotence of `make_final_map` -/

/-- Pointwise `map` congruence used below. -/
lemma map_congr_mem {α β : Type} {l : List α} {f g : α → β}
    (h : ∀ a ∈ l, f a = g a) : l.map f = l.map g := by
  induction l with
  | nil => rfl
  | cons a tl ih =>
    rw [List.map_cons, List.map_cons, h a (by simp),
      ih (fun x hx => h x (List.mem_cons_of_mem _ hx))]

lemma keysList_structMap (f : String → Option Nat → String × Bool) :
    ∀ m : BitMap, keysList (structMap f m) = keysList m := by
  intro m
  induction m with
  | nil => rfl
  | cons bi rest ih =>
    obtain ⟨b, inner⟩ := bi
    rw [structMap, keysList, keysList, ih, List.map_map]
    rfl

lemma structMap_structMap (f g : String → Option Nat → String × Bool) :
    ∀ m : BitMap, structMap f (structMap g m) = structMap f m := by
  intro m
  induction m with
  | nil => rfl
  | cons bi rest ih =>
    obtain ⟨b, inner⟩ := bi
    rw [structMap, structMap, structMap, ih, List.map_map]
    rfl

lemma structMap_congr (f g : String → Option Nat → String × Bool) :
    ∀ m : BitMap, (∀ k ∈ keysList m, f k.1 k.2 = g k.1 k.2) →
      structMap f m = structMap g m := by
  intro m
  induction m with
  | nil => intro h; rfl
  | cons bi rest ih =>
    intro h
    obtain ⟨b, inner⟩ := bi
    rw [structMap, structMap,
      ih (fun k hk => h k (by rw [keysList]; exact List.mem_append_right _ hk))]
    have hmap : inner.map (fun iv => (iv.1, f b iv.1))
        = inner.map (fun iv => (iv.1, g b iv.1)) := by
      refine map_congr_mem (fun iv hiv => ?_)
      have hk : (b, iv.1) ∈ keysList ((b, inner) :: rest) := by
        rw [keysList]
        exact List.mem_append_left _ (List.mem_map.mpr ⟨iv, hiv, rfl⟩)
      rw [h (b, iv.1) hk]
    rw [hmap]

lemma lookupInner_map_pos (b : String) (f : String → Option Nat → String × Bool)
    (inner : List (Option Nat × (String × Bool))) (i : Option Nat) :
    lookupInner (inner.map (fun iv => (iv.1, f b iv.1))) i =
      match lookupInner inner i with
      | none => none
      | some _ => some (f b i) := by
  induction inner with
  | nil => rfl
  | cons iv tl ih =>
    obtain ⟨j, w⟩ := iv
    rw [List.map_cons, lookupInner, lookupInner]
    by_cases hj : j = i
    · subst hj; rw [if_pos rfl, if_pos rfl]
    · rw [if_neg hj, if_neg hj, ih]

lemma lookupBM_structMap (f : String → Option Nat → String × Bool) :
    ∀ (m : BitMap) (b : String) (i : Option Nat),
      lookupBM (structMap f m) b i =
        match lookupBM m b i with
        | none => none
        | some _ => some (f b i) := by
  intro m
  induction m with
  | nil => intro b i; rfl
  | cons bi rest ih =>
    intro b i
    obtain ⟨b0, inner⟩ := bi
    rw [structMap, lookupBM, lookupBM]
    by_cases hb : b0 = b
    · subst hb; rw [if_pos rfl, if_pos rfl, lookupInner_map_pos]
    · rw [if_neg hb, if_neg hb, ih]

lemma mem_keysList_of_mem :
    ∀ (m : BitMap) (b : String) (inner : List (Option Nat × (String × Bool)))
      (iv : Option Nat × (String × Bool)),
      (b, inner) ∈ m → iv ∈ inner → (b, iv.1) ∈ keysList m := by
  intro m
  induction m with
  | nil => intro b inner iv hbi; simp at hbi
  | cons bj rest ih =>
    intro b inner iv hbi hiv
    obtain ⟨b0, inner0⟩ := bj
    rw [keysList]
    rcases List.mem_cons.mp hbi with h | h
    · obtain ⟨h1, h2⟩ := Prod.mk.injEq .. ▸ h
      subst h1; subst h2
      exact List.mem_append_left _ (List.mem_map.mpr ⟨iv, hiv, rfl⟩)
    · exact List.mem_append_right _ (ih b inner iv h hiv)

lemma mapMOpt_inner_eq (m : BitMap) (b : String)
    (inner : List (Option Nat × (String × Bool)))
    (h : ∀ iv ∈ inner, (resolveFinal m b iv.1).isSome) :
    mapMOpt (fun iv => (resolveFinal m b iv.1).map (fun r => (iv.1, r))) inner =
      some (inner.map (fun iv =>
        (iv.1, (resolveFinal m b iv.1).getD (renderToken b iv.1, false)))) := by
  induction inner with
  | nil => rfl
  | cons iv tl ih =>
    obtain ⟨r, hr⟩ := Option.isSome_iff_exists.mp (h iv (by simp))
    rw [mapMOpt, List.map_cons,
      ih (fun x hx => h x (List.mem_cons_of_mem _ hx))]
    simp only [hr, Option.map_some', Option.getD_some]

/-- When every stored position resolves without exception,
`make_final_map` produces exactly the structure-preserving rebuild. -/
lemma makeFinalMap_eq_finalize (m : BitMap)
    (h : ∀ k ∈ keysList m, (resolveFinal m k.1 k.2).isSome) :
    makeFinalMap m = some (finalizePos m) := by
  rw [makeFinalMap, finalizePos]
  suffices haux : ∀ l : BitMap,
      (∀ bi ∈ l, ∀ iv ∈ bi.2, (resolveFinal m bi.1 iv.1).isSome) →
      mapMOpt (fun bi =>
        (mapMOpt (fun iv => (resolveFinal m bi.1 iv.1).map (fun r => (iv.1, r))) bi.2).map
        (fun inner => (bi.1, inner))) l
        = some (structMap
            (fun b i => (resolveFinal m b i).getD (renderToken b i, false)) l) by
    refine haux m ?_
    intro bi hbi iv hiv
    exact h (bi.1, iv.1) (mem_keysList_of_mem m bi.1 bi.2 iv hbi hiv)
  intro l
  induction l with
  | nil => intro hl; rfl
  | cons bi rest ih =>
    intro hl
    obtain ⟨b0, inner⟩ := bi
    rw [mapMOpt, mapMOpt_inner_eq m b0 inner (fun iv hiv => hl (b0, inner) (by simp) iv hiv),
      ih (fun x hx iv hiv => hl x (List.mem_cons_of_mem _ hx) iv hiv), structMap]
    rfl

lemma resolveFinal_lookup_none {m : BitMap} {b : String} {i : Option Nat}
    (h : lookupBM m b i = none) :
    resolveFinal m b i = some (renderToken b i, false) := by
  rw [resolveFinal, bmFuel, resolveFinalF_succ, if_neg (List.not_mem_nil _), h]

lemma resolveFinal_isSome_of_shape {m : BitMap} (H : ResolvedShape m) :
    ∀ k ∈ keysList m, (resolveFinal m k.1 k.2).isSome := by
  intro k hk
  cases hl : lookupBM m k.1 k.2 with
  | none => rw [resolveFinal_lookup_none hl]; rfl
  | some v =>
    obtain ⟨path, invs, last, hw, hnd, hh, hlst, hp⟩ := H k hk
    rw [resolveFinal_of_walk m path invs k last hw hnd hh hlst]
    rfl

/-- Resolving in the resolved map agrees with resolving in the original
map, at every stored position. -/
lemma resolveFinal_finalize_eq {m : BitMap} (H : ResolvedShape m) :
    ∀ k ∈ keysList m,
      resolveFinal (finalizePos m) k.1 k.2 = resolveFinal m k.1 k.2 := by
  intro k hk
  obtain ⟨b, i⟩ := k
  cases hl : lookupBM m b i with
  | none =>
    have h2 : lookupBM (finalizePos m) b i = none := by
      rw [finalizePos, lookupBM_structMap, hl]
    rw [resolveFinal_lookup_none h2, resolveFinal_lookup_none hl]
  | some v =>
    obtain ⟨path, invs, last, hw, hnd, hh, hlst, hp⟩ := H (b, i) hk
    have hres : resolveFinal m b i
        = some (renderToken last.1 last.2, invs.foldr Bool.xor false) :=
      resolveFinal_of_walk m path invs (b, i) last hw hnd hh hlst
    have hlook2 : lookupBM (finalizePos m) b i
        = some (renderToken last.1 last.2, invs.foldr Bool.xor false) := by
      rw [finalizePos, lookupBM_structMap, hl]
      simp only [hres, Option.getD_some]
    have hlast_none : lookupBM m last.1 last.2 = none :=
      walk_last_none path invs m last hw hlst
    have hlast2 : lookupBM (finalizePos m) last.1 last.2 = none := by
      rw [finalizePos, lookupBM_structMap, hlast_none]
    have hkeys : keysList (finalizePos m) = keysList m := keysList_structMap _ m
    have hne : (last.1, last.2) ≠ (b, i) := by
      intro he
      have hb : last.1 = b := congrArg Prod.fst he
      have hi : last.2 = i := congrArg Prod.snd he
      rw [hb, hi, hl] at hlast_none
      exact Option.noConfusion hlast_none
    obtain ⟨g, hg⟩ : ∃ g, (keysList m).length = g + 1 := by
      have hpos : 0 < (keysList m).length :=
        List.length_pos.mpr (List.ne_nil_of_mem hk)
      exact ⟨(keysList m).length - 1, by omega⟩
    rw [resolveFinal, bmFuel, hkeys, hg, hres]
    rw [resolveFinalF_succ, if_neg (List.not_mem_nil _)]
    simp only [hlook2, hp]
    rw [resolveFinalF_succ, if_neg (by simpa using hne)]
    simp only [hlast2, Bool.xor_false]

/-- C1 (amended): for every alias map whose chains are acyclic and
well-formed — every stored position resolves along a duplicate-free chain
to a terminal key whose rendered token parses back to itself —
`make_final_map` succeeds and is idempotent: if it yields `m2`,
re-resolving `m2` yields `m2` again, with no value changed.  (The claim is
false for cyclic maps; see the counterexample.) -/
theorem c1_resolution_idempotent_on_acyclic (m m2 : BitMap) (H : ResolvedShape m)
    (hm2 : makeFinalMap m = some m2) : makeFinalMap m2 = some m2 := by
  have hsome := resolveFinal_isSome_of_shape H
  have hfin : makeFinalMap m = some (finalizePos m) := makeFinalMap_eq_finalize m hsome
  have hm2eq : m2 = finalizePos m := by
    rw [hfin] at hm2
    exact (Option.some.inj hm2).symm
  subst hm2eq
  have hkeys : keysList (finalizePos m) = keysList m := keysList_structMap _ m
  have hsome2 : ∀ k ∈ keysList (finalizePos m),
      (resolveFinal (finalizePos m) k.1 k.2).isSome := by
    intro k hk
    rw [hkeys] at hk
    rw [resolveFinal_finalize_eq H k hk]
    exact hsome k hk
  rw [makeFinalMap_eq_finalize (finalizePos m) hsome2]
  congr 1
  have hcomp : finalizePos (finalizePos m)
      = structMap (fun b i =>
          (resolveFinal (finalizePos m) b i).getD (renderToken b i, false)) m := by
    conv_lhs => rw [finalizePos]
    conv_lhs => rw [finalizePos]
    exact structMap_structMap _ _ m
  rw [hcomp]
  conv_rhs => rw [finalizePos]
  exact structMap_congr _ _ m
    (fun k hk => by rw [resolveFinal_finalize_eq H k hk])

/-- Counterexample to C1 as stated: on the cyclic map built from
`assign a = b; assign b = ~c; assign c = b;` the first resolution folds
the cycle parity into each entry, and a second resolution folds it again,
so the value at `a` flips from `("b", true)` to `("b", false)`:
`make_final_map` is not idempotent on this map. -/
theorem c1_not_idempotent_counterexample :
    makeFinalMap [("a", [(none, ("b", false))]), ("b", [(none, ("c", true))]),
        ("c", [(none, ("b", false))])]
      = some [("a", [(none, ("b", true))]), ("b", [(none, ("b", true))]),
        ("c", [(none, ("c", true))])] ∧
    makeFinalMap [("a", [(none, ("b", true))]), ("b", [(none, ("b", true))]),
        ("c", [(none, ("c", true))])]
      ≠ some [("a", [(none, ("b", true))]), ("b", [(none, ("b", true))]),
        ("c", [(none, ("c", true))])] := by
  constructor
  · rfl
  · decide

/-- Witness for the amended C1 on the two-hop acyclic chain
`a = ~b; b = c`. -/
theorem c1_resolution_idempotent_on_acyclic_witness :
    makeFinalMap [("a", [(none, ("b", true))]), ("b", [(none, ("c", false))])]
      = some [("a", [(none, ("c", true))]), ("b", [(none, ("c", false))])] ∧
    makeFinalMap [("a", [(none, ("c", true))]), ("b", [(none, ("c", false))])]
      = some [("a", [(none, ("c", true))]), ("b", [(none, ("c", false))])] := by
  refine ⟨rfl, ?_⟩
  refine c1_resolution_idempotent_on_acyclic
    [("a", [(none, ("b", true))]), ("b", [(none, ("c", false))])]
    [("a", [(none, ("c", true))]), ("b", [(none, ("c", false))])] ?_ rfl
  intro k hk
  have hk2 : k = ("a", (none : Option Nat)) ∨ k = ("b", (none : Option Nat)) := by
    simpa [keysList] using hk
  rcases hk2 with rfl | rfl
  · exact ⟨[("a", none), ("b", none), ("c", none)], [true, false], ("c", none),
      by decide, by decide, by decide, by decide, by decide⟩
  · exact ⟨[("b", none), ("c", none)], [false], ("c", none),
      by decide, by decide, by decide, by decide, by decide⟩

lemma lookupInner_innerInsert :
    ∀ (inner : List (Option Nat × (String × Bool))) (i : Option Nat)
      (v : String × Bool) (i2 : Option Nat),
      lookupInner (innerInsert inner i v) i2 =
        if i = i2 then some v else lookupInner inner i2 := by
  intro inner
  induction inner with
  | nil => intro i v i2; simp only [innerInsert, lookupInner]
  | cons jw tl ih =>
    intro i v i2
    obtain ⟨j, w⟩ := jw
    by_cases hj : j = i
    · subst hj
      by_cases hij : j = i2 <;> simp [innerInsert, lookupInner, hij]
    · by_cases hij : j = i2
      · subst hij
        simp [innerInsert, lookupInner, hj, Ne.symm hj]
      · simp [innerInsert, lookupInner, hj, hij, ih]

lemma lookupBM_bmInsert :
    ∀ (m : BitMap) (b : String) (i : Option Nat) (v : String × Bool)
      (b2 : String) (i2 : Option Nat),
      lookupBM (bmInsert m b i v) b2 i2 =
        if b = b2 ∧ i = i2 then some v else lookupBM m b2 i2 := by
  intro m
  induction m with
  | nil =>
    intro b i v b2 i2
    by_cases hb : b = b2
    · subst hb
      by_cases hi : i = i2 <;> simp [bmInsert, lookupBM, lookupInner, hi]
    · simp [bmInsert, lookupBM, hb]
  | cons bi rest ih =>
    intro b i v b2 i2
    obtain ⟨b0, inner⟩ := bi
    by_cases hb0 : b0 = b
    · subst hb0
      by_cases hb2 : b0 = b2
      · subst hb2
        by_cases hi : i = i2 <;>
          simp [bmInsert, lookupBM, lookupInner_innerInsert, hi]
      · simp [bmInsert, lookupBM, hb2]
    · by_cases hb2 : b0 = b2
      · subst hb2
        have hne : ¬(b = b0 ∧ i = i2) := fun h => hb0 h.1.symm
        simp [bmInsert, lookupBM, hb0, hne]
      · simp [bmInsert, lookupBM, hb0, hb2, ih]

lemma lookupBM_foldl_insert :
    ∀ (es : List (Key × (String × Bool))) (acc : BitMap) (b : String) (i : Option Nat),
      lookupBM (es.foldl (fun a e => bmInsert a e.1.1 e.1.2 e.2) acc) b i =
        match lastMatch (b, i) es with
        | some v => some v
        | none => lookupBM acc b i := by
  intro es
  induction es with
  | nil => intro acc b i; rfl
  | cons e tl ih =>
    intro acc b i
    rw [List.foldl_cons, ih]
    cases hlm : lastMatch (b, i) tl with
    | some v => simp [lastMatch, hlm]
    | none =>
      by_cases he : e.1 = (b, i)
      · have hc : e.1.1 = b ∧ e.1.2 = i :=
          ⟨congrArg Prod.fst he, congrArg Prod.snd he⟩
        simp [lastMatch, hlm, he, lookupBM_bmInsert, hc]
      · have hne : ¬(e.1.1 = b ∧ e.1.2 = i) := fun hh => he (Prod.ext hh.1 hh.2)
        simp [lastMatch, hlm, he, lookupBM_bmInsert, hne]

lemma buildRMAux_lookup :
    ∀ (stmts : List (String × String)) (pat : String → Bool) (sp : List String)
      (w : List (String × String)) (acc m : BitMap),
      buildRMAux pat sp w acc stmts = some m →
      ∀ b i, lookupBM m b i =
        match lastContrib pat sp w (b, i) stmts with
        | some v => some v
        | none => lookupBM acc b i := by
  intro stmts
  induction stmts with
  | nil =>
    intro pat sp w acc m hm b i
    rw [buildRMAux] at hm
    cases hm
    simp [lastContrib]
  | cons st rest ih =>
    intro pat sp w acc m hm b i
    rw [buildRMAux] at hm
    cases hes : stmtEntries pat sp w st with
    | none => rw [hes] at hm; exact absurd hm (by simp)
    | some es =>
      rw [hes] at hm
      have h2 := ih pat sp w _ m hm b i
      rw [h2, lookupBM_foldl_insert]
      cases hlc : lastContrib pat sp w (b, i) rest with
      | some v => simp [lastContrib, hlc, hes]
      | none => simp [lastContrib, hlc, hes]

lemma buildRMAux_isSome :
    ∀ (stmts : List (String × String)) (pat : String → Bool) (sp : List String)
      (w : List (String × String)) (acc : BitMap),
      (∀ st ∈ stmts, (stmtEntries pat sp w st).isSome) →
      ∃ m, buildRMAux pat sp w acc stmts = some m := by
  intro stmts
  induction stmts with
  | nil => intro pat sp w acc h; exact ⟨acc, rfl⟩
  | cons st rest ih =>
    intro pat sp w acc h
    obtain ⟨es, hes⟩ := Option.isSome_iff_exists.mp (h st (by simp))
    obtain ⟨m, hm⟩ := ih pat sp w
      (es.foldl (fun a e => bmInsert a e.1.1 e.1.2 e.2) acc)
      (fun x hx => h x (List.mem_cons_of_mem _ hx))
    refine ⟨m, ?_⟩
    rw [buildRMAux, hes]
    exact hm

/-- C9: in `build_replace_map`, a later statement writing the same
`(base, bit)` key overwrites the earlier one — the finished map holds, for
every key, exactly the `(token, invert)` pair contributed by the latest
statement (in top-to-bottom source order) that defines that key — and the
build raises no error for duplicate definitions (when every LHS
decomposes, the build succeeds). -/
theorem c9_last_writer_wins (stmts : List (String × String)) (pat : String → Bool)
    (sp : List String) (w : List (String × String))
    (h : ∀ st ∈ stmts, (stmtEntries pat sp w st).isSome) :
    ∃ m, buildReplaceMap stmts pat sp w = some m ∧
      ∀ b i, lookupBM m b i = lastContrib pat sp w (b, i) stmts := by
  obtain ⟨m, hm⟩ := buildRMAux_isSome stmts pat sp w [] h
  refine ⟨m, hm, ?_⟩
  intro b i
  rw [buildRMAux_lookup stmts pat sp w [] m hm b i]
  cases lastContrib pat sp w (b, i) stmts <;> rfl

/-- Witness for C9: `assign x = a;` then `assign x = ~b;` — the map keeps
the later `(b, inverted)` entry. -/
theorem c9_last_writer_wins_witness :
    ∃ m, buildReplaceMap [("x", "a"), ("x", "~b")] (fun s => decide (s = "x")) [] []
        = some m ∧
      ∀ b i, lookupBM m b i =
        lastContrib (fun s => decide (s = "x")) [] [] (b, i) [("x", "a"), ("x", "~b")] :=
  c9_last_writer_wins [("x", "a"), ("x", "~b")] (fun s => decide (s = "x")) [] []
    (by decide)

/-- C2 (refuting the totality of the pipeline): on the extractable LHS
text `{a, b}` (from e.g. `assign {a, b} = c;`), `decompose_lhs` matches
none of `INDEX_RE`, `SLICE_RE`, `BARE_RE`, so its final unguarded
`BARE_RE.match(lhs).group('name')` raises `AttributeError`, which escapes
through `build_replace_map` to the top level. -/
theorem c2_decompose_lhs_crash :
    decomposeLhs "\x7ba, b\x7d" = none ∧
    buildReplaceMap [("\x7ba, b\x7d", "c")] (fun _ => true) [] [] = none :=
  ⟨rfl, rfl⟩

/-! ### C6: uniform replication on the right-hand side -/

/-- One-step unfolding of `explodeF` at positive fuel. -/
lemma explodeF_succ (fuel : Nat) (rhs0 : String) (lhsBits : Nat) :
    explodeF (fuel + 1) rhs0 lhsBits =
      (let rhs1 := strStrip rhs0
       let p := stripInv rhs1
       let invAll := p.1
       let rhs := p.2
       match matchRepl rhs with
       | some (count, innerInv, what) =>
         match explodeF fuel (strStrip what) 1 with
         | none => none
         | some [] => none
         | some ((u, uinv) :: _) =>
           if lhsBits ≤ count then
             some (List.replicate lhsBits (u, uinv.xor (innerInv.xor invAll)))
           else
             none
       | none =>
         match matchSlice rhs with
         | some (name, hi, lo) =>
           let bits := (iterSliceIndices hi lo).map
             (fun i => name ++ "[" ++ Nat.repr i ++ "]")
           if bits.length = lhsBits then
             some (bits.map (fun b => (b, invAll)))
           else
             none
         | none =>
           match matchIndex rhs with
           | some _ => some (List.replicate lhsBits (rhs, invAll))
           | none =>
             match matchBare rhs with
             | some _ => some (List.replicate lhsBits (rhs, invAll))
             | none => none) := rfl

/-- C6: when the right-hand side is a uniform replication
`{count{maybe-inverted-unit}}` (with an optional leading inversion), the
exploded per-bit list is exactly `lhs_bits` copies of the unit token with
the three inversion flags XOR-folded if and only if `count >= lhs_bits`;
otherwise the result is `None` and the statement is skipped. -/
theorem c6_replication_width (rhs r what u : String) (lhsBits count : Nat)
    (invAll innerInv uinv : Bool) (rest : List (String × Bool))
    (h1 : stripInv (strStrip rhs) = (invAll, r))
    (h2 : matchRepl r = some (count, innerInv, what))
    (h3 : explodeF rhs.length (strStrip what) 1 = some ((u, uinv) :: rest)) :
    explodeRhsAsRefs rhs lhsBits =
      if lhsBits ≤ count then
        some (List.replicate lhsBits (u, uinv.xor (innerInv.xor invAll)))
      else none := by
  rw [explodeRhsAsRefs, explodeF_succ]
  simp only [h1, h2, h3]

/-- Witness for C6: `{4{p}}` on a 4-bit target explodes to four copies of
`p`, uninverted. -/
theorem c6_replication_width_witness :
    explodeRhsAsRefs "\x7b4\x7bp\x7d\x7d" 4 =
      (if 4 ≤ 4 then some (List.replicate 4 ("p", false)) else none) :=
  c6_replication_width "\x7b4\x7bp\x7d\x7d" "\x7b4\x7bp\x7d\x7d" "p" "p" 4 4
    false false false [] (by decide) (by decide) (by decide)

lemma lookupStr_append (ws : List (String × String)) (e : String × String)
    (name : String) :
    lookupStr (ws ++ [e]) name =
      match lookupStr ws name with
      | some v => some v
      | none => if e.1 = name then some e.2 else none := by
  induction ws with
  | nil => rfl
  | cons kv rest ih =>
    obtain ⟨k, v⟩ := kv
    by_cases hk : k = name
    · simp [lookupStr, hk]
    · simp [lookupStr, hk, ih]

lemma lookupStr_foldl_parts (width name : String) :
    ∀ (parts : List (List Char)) (ws : List (String × String)),
      lookupStr (parts.foldl (declPartStep width) ws) name =
        match lookupStr ws name with
        | some v => some v
        | none =>
          if parts.any (fun p => decide (partName p = some name)) then some width
          else none := by
  intro parts
  induction parts with
  | nil => intro ws; cases h : lookupStr ws name <;> simp [h]
  | cons p rest ih =>
    intro ws
    rw [List.foldl_cons, ih]
    cases hpn : partName p with
    | none => simp [declPartStep, hpn]
    | some nm =>
      simp only [declPartStep, hpn]
      by_cases hnm : nm = name
      · subst hnm
        cases hws : lookupStr ws nm with
        | some v => simp [hws, hpn]
        | none =>
          simp only [hws, Option.isSome_none, Bool.false_eq_true, if_false,
            lookupStr_append]
          simp [hws, hpn]
      · cases hws : lookupStr ws nm with
        | some v =>
          simp only [hws, Option.isSome_some, if_true]
          simp [hpn, hnm]
        | none =>
          simp only [hws, Option.isSome_none, Bool.false_eq_true, if_false,
            lookupStr_append]
          cases hn : lookupStr ws name with
          | some v => simp [hn]
          | none => simp [hn, hnm, hpn]

lemma lookupStr_foldl_decls (name : String) :
    ∀ (decls : List (String × String)) (ws : List (String × String)),
      lookupStr (decls.foldl declStep ws) name =
        match lookupStr ws name with
        | some v => some v
        | none => firstDeclWidth name decls := by
  intro decls
  induction decls with
  | nil => intro ws; cases h : lookupStr ws name <;> simp [h, firstDeclWidth]
  | cons d rest ih =>
    intro ws
    rw [List.foldl_cons, ih, firstDeclWidth]
    by_cases hw : strStrip d.1 = ""
    · have hc : ¬(strStrip d.1 ≠ "" ∧
          ((splitComma d.2.data).any (fun p => decide (partName p = some name))) = true) :=
        fun h => h.1 hw
      simp only [declStep]
      rw [if_pos hw, if_neg hc]
    · simp only [declStep]
      rw [if_neg hw, lookupStr_foldl_parts]
      cases hn : lookupStr ws name with
      | some v => simp
      | none =>
        by_cases hany :
            ((splitComma d.2.data).any (fun p => decide (partName p = some name))) = true
        · rw [if_pos hany, if_pos ⟨hw, hany⟩]
        · rw [if_neg hany, if_neg (fun h => hany h.2)]

lemma lookupStr_foldl_ports (name : String) :
    ∀ (ports : List (String × String)) (ws : List (String × String)),
      lookupStr (ports.foldl portStep ws) name =
        match lookupStr ws name with
        | some v => some v
        | none => firstPortWidth name ports := by
  intro ports
  induction ports with
  | nil => intro ws; cases h : lookupStr ws name <;> simp [h, firstPortWidth]
  | cons pr rest ih =>
    intro ws
    rw [List.foldl_cons, ih, firstPortWidth]
    by_cases hc : strStrip pr.1 ≠ "" ∧ (lookupStr ws pr.2).isNone
    · simp only [portStep]
      rw [if_pos hc, lookupStr_append]
      cases hn : lookupStr ws name with
      | some v => simp
      | none =>
        by_cases hpr : pr.2 = name
        · rw [if_pos hpr, if_pos ⟨hc.1, hpr⟩]
        · rw [if_neg hpr, if_neg (fun h => hpr h.2)]
    · simp only [portStep]
      rw [if_neg hc]
      cases hn : lookupStr ws name with
      | some v => simp
      | none =>
        have hcond : ¬(strStrip pr.1 ≠ "" ∧ pr.2 = name) := by
          intro h
          exact hc ⟨h.1, by rw [h.2, hn]; rfl⟩
        rw [if_neg hcond]

/-- C10: the declared-width map keeps the first width seen per name: the
earliest width-bearing `wire|logic|reg` declaration wins, a port
declaration's width is recorded only when no `wire|logic|reg` declaration
supplied one (and then the earliest such port declaration wins), and a
later conflicting width never overwrites an earlier entry. -/
theorem c10_first_width_wins (decls ports : List (String × String)) (name : String) :
    lookupStr (collectDeclWidths decls ports) name =
      match firstDeclWidth name decls with
      | some w => some w
      | none => firstPortWidth name ports := by
  rw [collectDeclWidths, lookupStr_foldl_ports, lookupStr_foldl_decls]
  cases firstDeclWidth name decls <;> rfl

/-- C7: a slice token is expanded bit by bit through the table and the
substituted list is recompacted in this order — all positions equal gives
a uniform replication over the run length, a contiguous ±1 run on a single
base gives a slice, and anything else gives an explicit comma-separated
concatenation; concretely, per-bit results `b[7], b[6], b[5], b[4]` render
as `b[7:4]`, a uniform result renders as a replication, and a mixed result
renders as a concatenation. -/
theorem c7_slice_recompaction :
    (∀ (tok name : String) (hi lo : Nat) (table widths : List (String × String))
       (av : Bool) (p0 p1 : String) (rest : List String),
       matchSlice tok = some (name, hi, lo) →
       assembleParts name (iterSliceIndices hi lo) table = p0 :: p1 :: rest →
       replaceToken tok table widths av =
         (if (p0 :: p1 :: rest).all (fun p => p == p0) then
            renderReplication (p0 :: p1 :: rest).length p0
          else
            match compactSliceFromParts (p0 :: p1 :: rest) with
            | some c => c
            | none => renderConcat (p0 :: p1 :: rest))) ∧
    replaceToken "a[3:0]"
      [("a[3]", "b[7]"), ("a[2]", "b[6]"), ("a[1]", "b[5]"), ("a[0]", "b[4]")] [] true
      = "b[7:4]" ∧
    replaceToken "a[3:0]"
      [("a[3]", "x"), ("a[2]", "x"), ("a[1]", "x"), ("a[0]", "x")] [] true
      = "\x7b4\x7bx\x7d\x7d" ∧
    replaceToken "a[3:0]"
      [("a[3]", "x"), ("a[2]", "b[6]"), ("a[1]", "b[5]"), ("a[0]", "b[4]")] [] true
      = "\x7bx, b[6], b[5], b[4]\x7d" := by
  refine ⟨?_, by decide, by decide, by decide⟩
  intro tok name hi lo table widths av p0 p1 rest hm hp
  simp only [replaceToken, hm, hp, compactParts]

/-- Witness for C7's general clause at the slice `c[1:0]` with an empty
table (the parts stay distinct and discontiguity is impossible for the
two untouched bits, which form a contiguous descending run). -/
theorem c7_slice_recompaction_witness :
    replaceToken "c[1:0]" [] [] false =
      (if (["c[1]", "c[0]"]).all (fun p => p == "c[1]") then
         renderReplication (["c[1]", "c[0]"] : List String).length "c[1]"
       else
         match compactSliceFromParts ["c[1]", "c[0]"] with
         | some c => c
         | none => renderConcat ["c[1]", "c[0]"]) :=
  c7_slice_recompaction.1 "c[1:0]" "c" 1 0 [] [] false "c[1]" "c[0]" []
    (by decide) (by decide)

lemma lookupNat_bumpNat :
    ∀ (a : List (String × Nat)) (b n : String),
      lookupNat (bumpNat a b) n =
        if b = n then (lookupNat a n).map (fun c => c + 1) else lookupNat a n := by
  intro a
  induction a with
  | nil =>
    intro b n
    by_cases hb : b = n <;> simp [bumpNat, lookupNat, hb]
  | cons kc rest ih =>
    intro b n
    obtain ⟨k, c⟩ := kc
    by_cases hk : k = b
    · subst hk
      by_cases hn : k = n
      · subst hn
        simp [bumpNat, lookupNat]
      · simp [bumpNat, lookupNat, hn]
    · by_cases hn : k = n
      · subst hn
        have hb : ¬ b = k := fun h => hk h.symm
        simp [bumpNat, lookupNat, hk, hb]
      · simp [bumpNat, lookupNat, hk, hn, ih]

lemma foldl_bump_lookup (targets exclude : List String) :
    ∀ (toks : List String) (acc : List (String × Nat)) (n : String) (c : Nat),
      lookupNat acc n = some c →
      lookupNat (toks.foldl (fun a t =>
          let b := baseOfTok t
          if b ∈ targets ∧ b ∉ exclude then bumpNat a b else a) acc) n
        = some (c + (if n ∈ targets ∧ n ∉ exclude then
            ((toks.filter (fun t => baseOfTok t == n)).length) else 0)) := by
  intro toks
  induction toks with
  | nil =>
    intro acc n c h
    by_cases hc : n ∈ targets ∧ n ∉ exclude <;> simp [h, hc]
  | cons t rest ih =>
    intro acc n c h
    rw [List.foldl_cons]
    by_cases hb : baseOfTok t = n
    · have hLcons : (List.filter (fun t2 => baseOfTok t2 == n) (t :: rest)).length
          = (List.filter (fun t2 => baseOfTok t2 == n) rest).length + 1 := by
        rw [List.filter_cons, if_pos (by simp [hb]), List.length_cons]
      by_cases hcond : n ∈ targets ∧ n ∉ exclude
      · have hstep : lookupNat (bumpNat acc (baseOfTok t)) n = some (c + 1) := by
          rw [lookupNat_bumpNat, if_pos hb, h]
          rfl
        have hiftrue : (if baseOfTok t ∈ targets ∧ baseOfTok t ∉ exclude then
            bumpNat acc (baseOfTok t) else acc) = bumpNat acc (baseOfTok t) := by
          rw [if_pos (hb ▸ hcond)]
        simp only [hiftrue]
        rw [ih _ n (c + 1) hstep, if_pos hcond, if_pos hcond, hLcons]
        simp only [Option.some.injEq]
        omega
      · have hiffalse : (if baseOfTok t ∈ targets ∧ baseOfTok t ∉ exclude then
            bumpNat acc (baseOfTok t) else acc) = acc := by
          rw [if_neg (hb ▸ hcond)]
        simp only [hiffalse]
        rw [ih _ n c h, if_neg hcond, if_neg hcond]
    · have hfil : List.filter (fun t2 => baseOfTok t2 == n) (t :: rest)
          = List.filter (fun t2 => baseOfTok t2 == n) rest := by
        rw [List.filter_cons, if_neg (by simp [hb])]
      have hkeep : lookupNat (if baseOfTok t ∈ targets ∧ baseOfTok t ∉ exclude then
          bumpNat acc (baseOfTok t) else acc) n = some c := by
        by_cases hc2 : baseOfTok t ∈ targets ∧ baseOfTok t ∉ exclude
        · rw [if_pos hc2, lookupNat_bumpNat, if_neg hb, h]
        · rw [if_neg hc2, h]
      rw [hfil, ih _ n c hkeep]

lemma lineUsesStep_lookup (targets : List String) (line : String)
    (acc : List (String × Nat)) (n : String) (c : Nat)
    (h : lookupNat acc n = some c) (hn : n ∈ targets) :
    lookupNat (lineUsesStep targets acc line) n = some (c + lineCount line n) := by
  rw [lineUsesStep, foldl_bump_lookup targets (lineExclude line) _ acc n c h]
  by_cases he : n ∈ lineExclude line
  · rw [if_neg (fun hh => hh.2 he), lineCount, if_pos he]
  · rw [if_pos ⟨hn, he⟩, lineCount, if_neg he]

lemma usesMap_fold (targets : List String) :
    ∀ (lines : List String) (acc : List (String × Nat)) (n : String) (c : Nat),
      lookupNat acc n = some c → n ∈ targets →
      lookupNat (lines.foldl (lineUsesStep targets) acc) n
        = some (c + usesCount lines n) := by
  intro lines
  induction lines with
  | nil => intro acc n c h hn; simp [h, usesCount]
  | cons line rest ih =>
    intro acc n c h hn
    rw [List.foldl_cons,
      ih _ n (c + lineCount line n) (lineUsesStep_lookup targets line acc n c h hn) hn]
    rw [usesCount, usesCount, List.map_cons, List.sum_cons]
    congr 1
    omega

lemma lookupNat_init :
    ∀ (targets : List String) (n : String), n ∈ targets →
      lookupNat (targets.map (fun x => (x, 0))) n = some 0 := by
  intro targets
  induction targets with
  | nil => intro n hn; simp at hn
  | cons t rest ih =>
    intro n hn
    by_cases ht : t = n
    · simp [lookupNat, ht]
    · rcases List.mem_cons.mp hn with h | h
      · exact absurd h.symm ht
      · simp [lookupNat, ht, ih n h]

lemma lookupNat_usesMap (lines targets : List String) (n : String)
    (hn : n ∈ targets) :
    lookupNat (usesMap lines targets) n = some (usesCount lines n) := by
  rw [usesMap, usesMap_fold targets lines _ n 0 (lookupNat_init targets n hn) hn]
  simp

lemma filter_congr_mem {α : Type} {p q : α → Bool} :
    ∀ l : List α, (∀ x ∈ l, p x = q x) → l.filter p = l.filter q := by
  intro l
  induction l with
  | nil => intro h; rfl
  | cons a rest ih =>
    intro h
    rw [List.filter_cons, List.filter_cons, h a (by simp),
      ih (fun x hx => h x (List.mem_cons_of_mem _ hx))]

lemma toRemove_eq_specDead (lines targets : List String) :
    toRemove lines targets = specDead lines targets := by
  rw [toRemove, specDead]
  refine filter_congr_mem targets (fun n hn => ?_)
  rw [lookupNat_usesMap lines targets n hn]
  rfl

lemma mapMOpt_cons_eq {α β : Type} (f : α → Option β) (a : α) (l : List α) :
    mapMOpt f (a :: l) =
      match f a, mapMOpt f l with
      | some b, some l2 => some (b :: l2)
      | _, _ => none := rfl

lemma mapMOpt_mem_isSome {α β : Type} (f : α → Option β) :
    ∀ (l : List α) (ol : List β), mapMOpt f l = some ol →
      ∀ x ∈ l, ∃ y, f x = some y := by
  intro l
  induction l with
  | nil => intro ol h x hx; simp at hx
  | cons a rest ih =>
    intro ol h x hx
    rw [mapMOpt_cons_eq] at h
    cases hfa : f a with
    | none => rw [hfa] at h; exact absurd h (by simp)
    | some b =>
      rw [hfa] at h
      cases hrest : mapMOpt f rest with
      | none => rw [hrest] at h; exact absurd h (by simp)
      | some l2 =>
        rcases List.mem_cons.mp hx with rfl | hx2
        · exact ⟨b, hfa⟩
        · exact ih l2 hrest x hx2

lemma mapMOpt_filterMap {α β : Type} (f : α → Option (Option β)) (g : α → Option β) :
    ∀ (l : List α) (ol : List (Option β)), mapMOpt f l = some ol →
      (∀ x ∈ l, f x = some (g x)) → ol.filterMap id = l.filterMap g := by
  intro l
  induction l with
  | nil =>
    intro ol h hg
    rw [mapMOpt] at h
    cases h
    rfl
  | cons a rest ih =>
    intro ol h hg
    rw [mapMOpt_cons_eq, hg a (by simp)] at h
    cases hrest : mapMOpt f rest with
    | none => rw [hrest] at h; exact absurd h (by simp)
    | some l2 =>
      rw [hrest] at h
      cases h
      have htl := ih l2 hrest (fun x hx => hg x (List.mem_cons_of_mem _ hx))
      cases hga : g a <;> simp [List.filterMap_cons, hga, htl]

lemma dropLit_cons_head {c : Char} {cs l r : List Char}
    (h : dropLit (c :: cs) l = some r) : ∃ t, l = c :: t ∧ dropLit cs t = some r := by
  cases l with
  | nil => rw [dropLit] at h; exact absurd h (by simp)
  | cons d ds =>
    rw [dropLit] at h
    by_cases hc : c = d
    · subst hc
      rw [if_pos rfl] at h
      exact ⟨ds, rfl, h⟩
    · rw [if_neg hc] at h
      exact absurd h (by simp)

lemma declKw_a (t : List Char) : declKw ('a' :: t) = none := by
  have h1 : dropLit "wire".data ('a' :: t) = none := by
    rw [show "wire".data = 'w' :: "ire".data from rfl, dropLit,
      if_neg (by decide)]
  have h2 : dropLit "logic".data ('a' :: t) = none := by
    rw [show "logic".data = 'l' :: "ogic".data from rfl, dropLit,
      if_neg (by decide)]
  have h3 : dropLit "reg".data ('a' :: t) = none := by
    rw [show "reg".data = 'r' :: "eg".data from rfl, dropLit,
      if_neg (by decide)]
  simp [declKw, h1, h2, h3]

/-- A line matched by `ASSIGN_RE` is never matched by `DECL_RE_LINE`
(after the leading whitespace it begins with `a`, not with a declaration
keyword). -/
lemma declLineMatch_none_of_assign (line : String)
    (h : (assignMatch line).isSome) : declLineMatch line = none := by
  obtain ⟨r, hr⟩ := Option.isSome_iff_exists.mp h
  rw [assignMatch] at hr
  cases hdl : dropLit "assign".data (line.data.dropWhile pySpace) with
  | none => rw [hdl] at hr; exact absurd hr (by simp)
  | some l2 =>
    have hdl2 : dropLit ('a' :: "ssign".data) (line.data.dropWhile pySpace) = some l2 :=
      hdl
    obtain ⟨t, hter, _⟩ := dropLit_cons_head hdl2
    simp only [declLineMatch, hter, declKw_a]

lemma specDispose_of_not_assign (rm : List String) (line : String)
    (h : assignMatch line = none) :
    specDispose rm line = pruneDeclOrKeep rm line := by
  simp only [specDispose, pruneDeclOrKeep, h]

lemma pruneDeclOrKeep_of_not_decl (rm : List String) (line : String)
    (h : declLineMatch line = none) : pruneDeclOrKeep rm line = some line := by
  simp only [pruneDeclOrKeep, h]

lemma pruneLine_eq_specDispose (rm : List String) (line : String) (o : Option String)
    (h : pruneLine rm line = some o) : pruneLine rm line = some (specDispose rm line) := by
  cases ha : assignMatch line with
  | none =>
    simp only [pruneLine, ha]
    rw [specDispose_of_not_assign rm line ha]
  | some lr =>
    obtain ⟨lhs, rest⟩ := lr
    simp only [pruneLine, ha] at h ⊢
    cases hmb : mmBaseName (strStrip lhs) with
    | none => rw [hmb] at h; exact absurd h (by simp)
    | some b =>
      have hdecl : declLineMatch line = none :=
        declLineMatch_none_of_assign line (by rw [ha]; rfl)
      by_cases hb : b ∈ rm
      · simp only [specDispose, ha, hmb, if_pos hb]
      · simp only [specDispose, ha, hmb, if_neg hb,
          pruneDeclOrKeep_of_not_decl rm line hdecl]

/-- C8: characterization of `prune_unused_assigns_and_decls` over the
split lines of the rewritten text.  The dead set is exactly the targeted
base names whose liveness count — textual occurrences excluding the
name's own role on its assign lines and inside declaration name lists —
is zero; when nothing is dead the text passes through unchanged; when
something is dead, every driving statement with a dead LHS base is
deleted entirely, declaration lines lose exactly their dead names (the
line is deleted when its name list empties and is reassembled from the
remaining names otherwise), and all other lines pass through. -/
theorem c8_prune_characterization (lines targets out : List String)
    (h : pruneLines lines targets = some out) :
    toRemove lines targets = specDead lines targets ∧
    (∀ n, n ∈ specDead lines targets ↔ n ∈ targets ∧ usesCount lines n = 0) ∧
    (specDead lines targets = [] → out = lines) ∧
    (specDead lines targets ≠ [] →
      out = lines.filterMap (specDispose (specDead lines targets))) := by
  have hts := toRemove_eq_specDead lines targets
  refine ⟨hts, ?_, ?_, ?_⟩
  · intro n
    simp [specDead, List.mem_filter]
  · intro hde
    simp only [pruneLines, hts] at h
    rw [if_pos hde] at h
    exact (Option.some.inj h).symm
  · intro hne
    simp only [pruneLines, hts] at h
    rw [if_neg hne] at h
    cases hmo : mapMOpt (pruneLine (specDead lines targets)) lines with
    | none => rw [hmo] at h; exact absurd h (by simp)
    | some ol =>
      rw [hmo] at h
      have hol : ol.filterMap id = out := by simpa using h
      rw [← hol]
      refine mapMOpt_filterMap _ _ lines ol hmo (fun line hline => ?_)
      obtain ⟨o, ho⟩ := mapMOpt_mem_isSome _ lines ol hmo line hline
      exact pruneLine_eq_specDispose _ line o ho

/-- Witness for C8 on a two-line text whose only target is dead: both the
declaration and the driving statement are deleted. -/
theorem c8_prune_characterization_witness :
    toRemove ["wire a;", "assign a = b;"] ["a"]
      = specDead ["wire a;", "assign a = b;"] ["a"] ∧
    (∀ n, n ∈ specDead ["wire a;", "assign a = b;"] ["a"] ↔
      n ∈ ["a"] ∧ usesCount ["wire a;", "assign a = b;"] n = 0) ∧
    (specDead ["wire a;", "assign a = b;"] ["a"] = [] →
      ([] : List String) = ["wire a;", "assign a = b;"]) ∧
    (specDead ["wire a;", "assign a = b;"] ["a"] ≠ [] →
      ([] : List String) = (["wire a;", "assign a = b;"] : List String).filterMap
        (specDispose (specDead ["wire a;", "assign a = b;"] ["a"]))) :=
  c8_prune_characterization ["wire a;", "assign a = b;"] ["a"] [] (by decide)

/-! ### C5: port bases and the alias machinery -/

lemma all_takeWhile_pred (p : Char → Bool) :
    ∀ l : List Char, (l.takeWhile p).all p = true := by
  intro l
  induction l with
  | nil => rfl
  | cons c cs ih =>
    rw [List.takeWhile_cons]
    by_cases h : p c = true
    · simp [h, ih]
    · simp [h]

lemma identHead_all_word :
    ∀ (l w r : List Char), identHead l = some (w, r) → w.all isWordChar = true := by
  intro l w r h
  cases l with
  | nil => rw [identHead] at h; exact absurd h (by simp)
  | cons c cs =>
    rw [identHead] at h
    by_cases hc : isIdentStart c = true
    · rw [if_pos hc] at h
      have hw : w = c :: cs.takeWhile isWordChar :=
        (congrArg Prod.fst (Option.some.inj h)).symm
      subst hw
      simp only [List.all_cons, Bool.and_eq_true]
      constructor
      · have hc2 := hc
        simp only [isIdentStart, Bool.or_eq_true] at hc2
        simp only [isWordChar, Bool.or_eq_true]
        tauto
      · exact all_takeWhile_pred isWordChar cs
    · rw [if_neg hc] at h
      exact absurd h (by simp)

lemma matchBare_wordlike (s : String) (n : String) (h : matchBare s = some n) :
    n.data.all isWordChar = true := by
  rw [matchBare] at h
  cases hih : identHead s.data with
  | none => rw [hih] at h; exact absurd h (by simp)
  | some wr =>
    obtain ⟨w, rest⟩ := wr
    cases rest with
    | nil =>
      rw [hih] at h
      have hn : (⟨w⟩ : String) = n := Option.some.inj h
      rw [← hn]
      exact identHead_all_word s.data w [] hih
    | cons d ds =>
      rw [hih] at h
      exact absurd h (by simp)

lemma matchIndex_wordlike (s : String) (n : String) (i : Nat)
    (h : matchIndex s = some (n, i)) : n.data.all isWordChar = true := by
  rw [matchIndex] at h
  split at h
  · rename_i w r hih
    split at h
    · rename_i n2
      have hn : (⟨w⟩ : String) = n := congrArg Prod.fst (Option.some.inj h)
      rw [← hn]
      exact identHead_all_word s.data w ('[' :: r) hih
    · exact absurd h (by simp)
  · exact absurd h (by simp)

lemma matchSlice_wordlike (s : String) (n : String) (hi lo : Nat)
    (h : matchSlice s = some (n, hi, lo)) : n.data.all isWordChar = true := by
  rw [matchSlice] at h
  split at h
  · rename_i w r hih
    split at h
    · rename_i hi2 r2
      split at h
      · rename_i lo2
        have hn : (⟨w⟩ : String) = n := congrArg Prod.fst (Option.some.inj h)
        rw [← hn]
        exact identHead_all_word s.data w ('[' :: r) hih
      · exact absurd h (by simp)
    · exact absurd h (by simp)
  · exact absurd h (by simp)

lemma decomposeLhs_wordlike (lhs : String) (base : String) (idxs : List (Option Nat))
    (h : decomposeLhs lhs = some (base, idxs)) : base.data.all isWordChar = true := by
  cases hmi : matchIndex (strStrip lhs) with
  | some ni =>
    obtain ⟨n0, i0⟩ := ni
    simp only [decomposeLhs, hmi] at h
    have hn : n0 = base := congrArg Prod.fst (Option.some.inj h)
    rw [← hn]
    exact matchIndex_wordlike (strStrip lhs) n0 i0 hmi
  | none =>
    cases hms : matchSlice (strStrip lhs) with
    | some nhl =>
      obtain ⟨n0, hi0, lo0⟩ := nhl
      simp only [decomposeLhs, hmi, hms] at h
      have hn : n0 = base := congrArg Prod.fst (Option.some.inj h)
      rw [← hn]
      exact matchSlice_wordlike (strStrip lhs) n0 hi0 lo0 hms
    | none =>
      cases hmb : matchBare (strStrip lhs) with
      | some n0 =>
        simp only [decomposeLhs, hmi, hms, hmb] at h
        have hn : n0 = base := congrArg Prod.fst (Option.some.inj h)
        rw [← hn]
        exact matchBare_wordlike (strStrip lhs) n0 hmb
      | none => simp [decomposeLhs, hmi, hms, hmb] at h

lemma stmtEntries_base_prop (pat : String → Bool) (sp : List String)
    (w : List (String × String)) (st : String × String)
    (es : List (Key × (String × Bool))) (h : stmtEntries pat sp w st = some es) :
    ∀ e ∈ es, e.1.1 ∉ sp ∧ (e.1.1).data.all isWordChar = true := by
  intro e he
  cases hd : decomposeLhs (strStrip st.1) with
  | none => simp [stmtEntries, hd] at h
  | some bi =>
    obtain ⟨base, idxs0⟩ := bi
    by_cases hbp : base ∈ sp
    · have hes : es = [] := by
        have h2 := h
        simp only [stmtEntries, hd] at h2
        rw [if_pos hbp] at h2
        exact (Option.some.inj h2).symm
      subst hes
      simp at he
    · by_cases hpat : pat base = true
      · have h2 := h
        simp only [stmtEntries, hd] at h2
        rw [if_neg hbp, if_neg (not_not_intro hpat)] at h2
        cases hex : explodeRhsAsRefs (strStrip st.2) (lhsIdxList w base idxs0).length with
        | none =>
          simp only [hex] at h2
          injection h2 with h3
          subst h3
          simp at he
        | some refs =>
          simp only [hex] at h2
          by_cases href : refs = []
          · rw [if_pos href] at h2
            injection h2 with h3
            subst h3
            simp at he
          · rw [if_neg href] at h2
            injection h2 with h3
            subst h3
            obtain ⟨pq, hpq, hpe⟩ := List.mem_map.mp he
            have hbase : e.1.1 = base := by rw [← hpe]
            refine ⟨?_, ?_⟩
            · rw [hbase]; exact hbp
            · rw [hbase]
              exact decomposeLhs_wordlike (strStrip st.1) base idxs0 hd
      · have hes : es = [] := by
          have h2 := h
          simp only [stmtEntries, hd] at h2
          rw [if_neg hbp, if_pos hpat] at h2
          exact (Option.some.inj h2).symm
        subst hes
        simp at he

lemma bmInsert_outer_mem :
    ∀ (m : BitMap) (b : String) (i : Option Nat) (v : String × Bool)
      (b2 : String) (inner2 : List (Option Nat × (String × Bool))),
      (b2, inner2) ∈ bmInsert m b i v → b2 = b ∨ ∃ inner0, (b2, inner0) ∈ m := by
  intro m
  induction m with
  | nil =>
    intro b i v b2 inner2 h
    rw [bmInsert] at h
    left
    exact congrArg Prod.fst (List.mem_singleton.mp h)
  | cons be rest ih =>
    intro b i v b2 inner2 h
    obtain ⟨b0, inner0⟩ := be
    rw [bmInsert] at h
    by_cases hb0 : b0 = b
    · rw [if_pos hb0] at h
      rcases List.mem_cons.mp h with heq | htl
      · left
        exact (congrArg Prod.fst heq).trans hb0
      · right
        exact ⟨inner2, List.mem_cons_of_mem _ htl⟩
    · rw [if_neg hb0] at h
      rcases List.mem_cons.mp h with heq | htl
      · right
        refine ⟨inner0, ?_⟩
        have hb2 : b2 = b0 := congrArg Prod.fst heq
        rw [hb2]
        exact List.mem_cons_self _ _
      · rcases ih b i v b2 inner2 htl with h1 | ⟨inner1, h1⟩
        · left; exact h1
        · right; exact ⟨inner1, List.mem_cons_of_mem _ h1⟩

lemma foldl_insert_outer_mem :
    ∀ (es : List (Key × (String × Bool))) (acc : BitMap) (b2 : String)
      (inner2 : List (Option Nat × (String × Bool))),
      (b2, inner2) ∈ es.foldl (fun a e => bmInsert a e.1.1 e.1.2 e.2) acc →
      (∃ inner0, (b2, inner0) ∈ acc) ∨ ∃ e ∈ es, b2 = e.1.1 := by
  intro es
  induction es with
  | nil => intro acc b2 inner2 h; exact Or.inl ⟨inner2, h⟩
  | cons e tl ih =>
    intro acc b2 inner2 h
    rw [List.foldl_cons] at h
    rcases ih _ b2 inner2 h with ⟨inner0, h0⟩ | ⟨e2, he2, hb⟩
    · rcases bmInsert_outer_mem acc e.1.1 e.1.2 e.2 b2 inner0 h0 with hb | ⟨inner1, h1⟩
      · exact Or.inr ⟨e, List.mem_cons_self _ _, hb⟩
      · exact Or.inl ⟨inner1, h1⟩
    · exact Or.inr ⟨e2, List.mem_cons_of_mem _ he2, hb⟩

lemma buildRMAux_outer_prop (P : String → Prop)
    (pat : String → Bool) (sp : List String) (w : List (String × String))
    (hP : ∀ st es, stmtEntries pat sp w st = some es → ∀ e ∈ es, P e.1.1) :
    ∀ (stmts : List (String × String)) (acc m : BitMap),
      buildRMAux pat sp w acc stmts = some m →
      (∀ b inner, (b, inner) ∈ acc → P b) →
      ∀ b inner, (b, inner) ∈ m → P b := by
  intro stmts
  induction stmts with
  | nil =>
    intro acc m hm hacc b inner hb
    rw [buildRMAux] at hm
    cases hm
    exact hacc b inner hb
  | cons st rest ih =>
    intro acc m hm hacc b inner hb
    rw [buildRMAux] at hm
    cases hes : stmtEntries pat sp w st with
    | none => rw [hes] at hm; exact absurd hm (by simp)
    | some es =>
      rw [hes] at hm
      refine ih _ m hm ?_ b inner hb
      intro b2 inner2 hmem
      rcases foldl_insert_outer_mem es acc b2 inner2 hmem with ⟨inner0, h0⟩ | ⟨e, hei, hbe⟩
      · exact hacc b2 inner0 h0
      · rw [hbe]
        exact hP st es hes e hei

lemma keysList_outer :
    ∀ (m : BitMap) (k : Key), k ∈ keysList m → ∃ inner, (k.1, inner) ∈ m := by
  intro m
  induction m with
  | nil => intro k h; simp [keysList] at h
  | cons be rest ih =>
    intro k h
    obtain ⟨b0, inner0⟩ := be
    rw [keysList] at h
    rcases List.mem_append.mp h with h1 | h2
    · obtain ⟨iv, hiv, heq⟩ := List.mem_map.mp h1
      refine ⟨inner0, ?_⟩
      have hk : k.1 = b0 := by rw [← heq]
      rw [hk]
      exact List.mem_cons_self _ _
    · obtain ⟨inner, hmem⟩ := ih k h2
      exact ⟨inner, List.mem_cons_of_mem _ hmem⟩

lemma mapMOpt_mem_rev {α β : Type} (f : α → Option β) :
    ∀ (l : List α) (ol : List β), mapMOpt f l = some ol →
      ∀ y ∈ ol, ∃ x ∈ l, f x = some y := by
  intro l
  induction l with
  | nil =>
    intro ol h y hy
    rw [mapMOpt] at h
    cases h
    simp at hy
  | cons a rest ih =>
    intro ol h y hy
    rw [mapMOpt_cons_eq] at h
    cases hfa : f a with
    | none => rw [hfa] at h; exact absurd h (by simp)
    | some b =>
      rw [hfa] at h
      cases hrest : mapMOpt f rest with
      | none => rw [hrest] at h; exact absurd h (by simp)
      | some l2 =>
        rw [hrest] at h
        cases h
        rcases List.mem_cons.mp hy with rfl | hy2
        · exact ⟨a, List.mem_cons_self _ _, hfa⟩
        · obtain ⟨x, hx, hfx⟩ := ih l2 hrest y hy2
          exact ⟨x, List.mem_cons_of_mem _ hx, hfx⟩

lemma makeFinalMap_outer (m fm : BitMap) (h : makeFinalMap m = some fm)
    (b : String) (inner : List (Option Nat × (String × Bool)))
    (hb : (b, inner) ∈ fm) : ∃ inner0, (b, inner0) ∈ m := by
  rw [makeFinalMap] at h
  obtain ⟨bi, hbi, hf⟩ := mapMOpt_mem_rev _ m fm h (b, inner) hb
  have hf2 : (mapMOpt (fun iv =>
      (resolveFinal m bi.1 iv.1).map (fun r => (iv.1, r))) bi.2).map
      (fun inner2 => (bi.1, inner2)) = some (b, inner) := hf
  cases hmo : mapMOpt (fun iv =>
      (resolveFinal m bi.1 iv.1).map (fun r => (iv.1, r))) bi.2 with
  | none => rw [hmo] at hf2; exact absurd hf2 (by simp)
  | some inner2 =>
    rw [hmo] at hf2
    have hb1 : bi.1 = b := congrArg Prod.fst (Option.some.inj hf2)
    refine ⟨bi.2, ?_⟩
    rw [← hb1]
    exact hbi

lemma strInsert_mem :
    ∀ (tb : List (String × String)) (k v : String) (x : String × String),
      x ∈ strInsert tb k v → x ∈ tb ∨ x.1 = k := by
  intro tb
  induction tb with
  | nil =>
    intro k v x h
    rw [strInsert] at h
    right
    exact congrArg Prod.fst (List.mem_singleton.mp h)
  | cons kv rest ih =>
    intro k v x h
    obtain ⟨k0, v0⟩ := kv
    rw [strInsert] at h
    by_cases hk : k0 = k
    · rw [if_pos hk] at h
      rcases List.mem_cons.mp h with heq | htl
      · right
        exact (congrArg Prod.fst heq).trans hk
      · left
        exact List.mem_cons_of_mem _ htl
    · rw [if_neg hk] at h
      rcases List.mem_cons.mp h with heq | htl
      · left
        rw [heq]
        exact List.mem_cons_self _ _
      · rcases ih k v x htl with h1 | h2
        · left; exact List.mem_cons_of_mem _ h1
        · right; exact h2

lemma innerTb_fold_mem (b : String) :
    ∀ (inner : List (Option Nat × (String × Bool))) (tb : List (String × String))
      (x : String × String),
      x ∈ inner.foldl (fun tb2 iv =>
        strInsert tb2 (renderToken b iv.1)
          (if iv.2.2 then "~" ++ iv.2.1 else iv.2.1)) tb →
      x ∈ tb ∨ ∃ iv ∈ inner, x.1 = renderToken b iv.1 := by
  intro inner
  induction inner with
  | nil => intro tb x h; exact Or.inl h
  | cons iv tl ih =>
    intro tb x h
    rw [List.foldl_cons] at h
    rcases ih _ x h with h1 | ⟨iv2, hiv2, hx⟩
    · rcases strInsert_mem tb _ _ x h1 with h2 | h3
      · exact Or.inl h2
      · exact Or.inr ⟨iv, List.mem_cons_self _ _, h3⟩
    · exact Or.inr ⟨iv2, List.mem_cons_of_mem _ hiv2, hx⟩

lemma replTable_fold_mem :
    ∀ (fm : BitMap) (tb : List (String × String)) (x : String × String),
      x ∈ fm.foldl (fun tb bi =>
        bi.2.foldl (fun tb2 iv =>
          strInsert tb2 (renderToken bi.1 iv.1)
            (if iv.2.2 then "~" ++ iv.2.1 else iv.2.1)) tb) tb →
      x ∈ tb ∨ ∃ bi ∈ fm, ∃ iv ∈ bi.2, x.1 = renderToken bi.1 iv.1 := by
  intro fm
  induction fm with
  | nil => intro tb x h; exact Or.inl h
  | cons bi0 tl ih =>
    intro tb x h
    rw [List.foldl_cons] at h
    rcases ih _ x h with h1 | ⟨bi, hbi, iv, hiv, hx⟩
    · rcases innerTb_fold_mem bi0.1 bi0.2 tb x h1 with h2 | ⟨iv, hiv, hx⟩
      · exact Or.inl h2
      · exact Or.inr ⟨bi0, List.mem_cons_self _ _, iv, hiv, hx⟩
    · exact Or.inr ⟨bi, List.mem_cons_of_mem _ hbi, iv, hiv, hx⟩

lemma buildReplTable_mem (fm : BitMap) (x : String × String)
    (h : x ∈ buildReplTable fm) :
    ∃ bi ∈ fm, ∃ iv ∈ bi.2, x.1 = renderToken bi.1 iv.1 := by
  rw [buildReplTable] at h
  rcases replTable_fold_mem fm [] x h with h1 | h2
  · simp at h1
  · exact h2

lemma takeWhile_word_self :
    ∀ l : List Char, l.all isWordChar = true →
      l.takeWhile (fun c => ¬ c = '[') = l := by
  intro l
  induction l with
  | nil => intro h; rfl
  | cons c cs ih =>
    intro h
    rw [List.all_cons, Bool.and_eq_true] at h
    have hc : ¬ c = '[' := by
      intro hcc
      rw [hcc] at h
      exact absurd h.1 (by decide)
    rw [List.takeWhile_cons, if_pos (by simpa using hc), ih h.2]

lemma takeWhile_word_append :
    ∀ (l : List Char) (r : List Char), l.all isWordChar = true →
      (l ++ '[' :: r).takeWhile (fun c => ¬ c = '[') = l := by
  intro l
  induction l with
  | nil =>
    intro r h
    rw [List.nil_append, List.takeWhile_cons, if_neg (by simp)]
  | cons c cs ih =>
    intro r h
    rw [List.all_cons, Bool.and_eq_true] at h
    have hc : ¬ c = '[' := by
      intro hcc
      rw [hcc] at h
      exact absurd h.1 (by decide)
    rw [List.cons_append, List.takeWhile_cons, if_pos (by simpa using hc), ih r h.2]

lemma baseOfTok_renderToken (b : String) (hb : b.data.all isWordChar = true)
    (i : Option Nat) : baseOfTok (renderToken b i) = b := by
  cases i with
  | none =>
    show (⟨b.data.takeWhile (fun c => ¬ c = '[')⟩ : String) = b
    rw [takeWhile_word_self b.data hb]
  | some n =>
    show (⟨(b ++ "[" ++ Nat.repr n ++ "]").data.takeWhile (fun c => ¬ c = '[')⟩ :
      String) = b
    have hdata : (b ++ "[" ++ Nat.repr n ++ "]").data
        = b.data ++ '[' :: ((Nat.repr n).data ++ [']']) := by
      simp [String.data_append]
    rw [hdata, takeWhile_word_append b.data _ hb]

/-- C5 (amended): a base name in the port set never receives an entry in
the alias map — no stored `(base, bit)` position of the built map or of
the resolved map has a port base — and every key of the replacement table
is rendered from a non-port base, so no reference to a port (a token
whose base is the port name) is ever a substitution key.  The original
claim's last part — that a port's declaration and driving statement are
never deleted by pruning — is false: the pruning targets are collected
from the assign LHS names without consulting the port set (see the
counterexample). -/
theorem c5_port_immunity_amended (stmts : List (String × String)) (pat : String → Bool)
    (sp : List String) (w : List (String × String)) (m fm : BitMap)
    (hm : buildReplaceMap stmts pat sp w = some m)
    (hfm : makeFinalMap m = some fm)
    (p : String) (hp : p ∈ sp) :
    (keysList m).all (fun k => ¬ k.1 = p) = true ∧
    (keysList fm).all (fun k => ¬ k.1 = p) = true ∧
    ((buildReplTable fm).map Prod.fst).all (fun t => ¬ baseOfTok t = p) = true := by
  have houter : ∀ b inner, (b, inner) ∈ m →
      b ∉ sp ∧ b.data.all isWordChar = true :=
    buildRMAux_outer_prop (fun b => b ∉ sp ∧ b.data.all isWordChar = true) pat sp w
      (fun st es hes e he => stmtEntries_base_prop pat sp w st es hes e he)
      stmts [] m hm (fun b inner hb => absurd hb (List.not_mem_nil _))
  have houterf : ∀ b inner, (b, inner) ∈ fm →
      b ∉ sp ∧ b.data.all isWordChar = true := by
    intro b inner hb
    obtain ⟨inner0, h0⟩ := makeFinalMap_outer m fm hfm b inner hb
    exact houter b inner0 h0
  refine ⟨?_, ?_, ?_⟩
  · refine List.all_eq_true.mpr (fun k hk => ?_)
    obtain ⟨inner, hmem⟩ := keysList_outer m k hk
    have hne : ¬ k.1 = p := fun he => (houter k.1 inner hmem).1 (by rw [he]; exact hp)
    simpa using hne
  · refine List.all_eq_true.mpr (fun k hk => ?_)
    obtain ⟨inner, hmem⟩ := keysList_outer fm k hk
    have hne : ¬ k.1 = p := fun he => (houterf k.1 inner hmem).1 (by rw [he]; exact hp)
    simpa using hne
  · refine List.all_eq_true.mpr (fun t ht => ?_)
    obtain ⟨x, hx, hxt⟩ := List.mem_map.mp ht
    obtain ⟨bi, hbi, iv, hiv, hkey⟩ := buildReplTable_mem fm x hx
    have hprop := houterf bi.1 bi.2 hbi
    have hbase : baseOfTok t = bi.1 := by
      rw [← hxt, hkey]
      exact baseOfTok_renderToken bi.1 hprop.2 iv.1
    have hne : ¬ baseOfTok t = p := by
      rw [hbase]
      exact fun he => hprop.1 (by rw [he]; exact hp)
    simpa using hne

/-- Counterexample to C5's deletion-immunity part: in
`wire input p; assign p = q;` the name `p` is collected as a port (the
inline port regex matches `input p` inside the declaration), yet the full
pipeline deletes its driving statement `assign p = q;`, because the
pruning targets come from `collect_assign_lhs_names`, which never
consults the port set. -/
theorem c5_port_assign_deleted_counterexample :
    "p" ∈ parsePortsLines ["wire input p;", "assign p = q;"] ∧
    runPipeline ["wire input p;", "assign p = q;"] (fun b => decide (b = "p"))
      = some ["wire input p;"] := by
  constructor
  · decide
  · decide

/-- Witness for C5 on `assign x = p;` with port set `\x7bp\x7d`: the built and
resolved maps store only base `x`, and the single table key `x` has a
non-port base. -/
theorem c5_port_immunity_amended_witness :
    (keysList [("x", [(none, ("p", false))])]).all (fun k => ¬ k.1 = "p") = true ∧
    (keysList [("x", [(none, ("p", false))])]).all (fun k => ¬ k.1 = "p") = true ∧
    ((buildReplTable [("x", [(none, ("p", false))])]).map Prod.fst).all
      (fun t => ¬ baseOfTok t = "p") = true :=
  c5_port_immunity_amended [("x", "p")] (fun _ => true) ["p"] []
    [("x", [(none, ("p", false))])] [("x", [(none, ("p", false))])]
    (by decide) (by decide) "p" (by decide)

end SvRepeaterPrune
